import Mathlib

/-!
Verification of the core of `.github/scripts/trymerge.py`, an automated
pull-request merge bot.  Python functions are shallowly embedded as executable
Lean definitions: Python `dict`s (which preserve insertion order) become
association lists `List (String × α)`, Python `None`-able values become
`Option`, raised exceptions become `Except`/`Option` results, and Python's
substring test `p in s` becomes `substrb p s`.  External collaborators that are
not part of the script (the GitHub/Rockset network clients, the compiled file
pattern regex from `gitutils.patterns_to_regex`, and team-membership lookup)
are passed in as explicit function parameters.
-/

namespace Trymerge

/-- Python's substring containment test `p in s` for strings. -/
def substrb (p s : String) : Bool := decide (p.data <:+: s.data)

/-- Uppercasing used by `is_passing_status` (Python `status.upper()`),
character by character. -/
def upperStr (s : String) : String := ⟨s.data.map Char.toUpper⟩

/-- One CI job instance, mirroring class `JobCheckState` of the script
(fields `name`, `url`, `status`, `classification`). -/
structure JobCheckState where
  name : String
  url : String
  status : Option String
  classification : Option String
deriving DecidableEq, Repr

/-- Mirrors `JobNameToStateDict = Dict[str, JobCheckState]`; a Python dict is
modelled as an insertion-ordered association list. -/
abbrev JobNameToStateDict := List (String × JobCheckState)

/-- Mirrors `is_passing_status`: the status is present and uppercases to one of
SUCCESS, SKIPPED, NEUTRAL. -/
def is_passing_status (status : Option String) : Bool :=
  match status with
  | none => false
  | some s => [ "SUCCESS", "SKIPPED", "NEUTRAL"].contains (upperStr s)

/-- One row returned by the Rockset analytics query in `get_rockset_results`;
only the fields the script reads are modelled.  `conclusion` and
`failure_captures` may be null in the store, hence `Option`. -/
structure RocksetJob where
  workflow_name : String
  name : String
  id : Nat
  conclusion : Option String
  head_sha : String
  failure_captures : Option (List String)
  steps : Nat
deriving DecidableEq, Repr

/-- Mirrors class `FlakyRule` (fields `name`, `captures`). -/
structure FlakyRule where
  name : String
  captures : List String
deriving DecidableEq, Repr

/-- Mirrors `FlakyRule.matches(job)`: the job is present, the rule name is a
substring of the job name, the job's `failure_captures` is not null, and every
capture of the rule occurs in the job's `failure_captures` list. -/
def FlakyRule.matches (rule : FlakyRule) (job : Option RocksetJob) : Bool :=
  match job with
  | none => false
  | some j =>
      substrb rule.name j.name &&
      j.failure_captures.isSome &&
      rule.captures.all (fun capture => (j.failure_captures.getD []).contains capture)

/-- A concrete job whose `failure_captures` field is null. -/
def jobNoCaptures : RocksetJob :=
  { workflow_name := "pull", name := "xy", id := 1, conclusion := some "failure",
    head_sha := "h", failure_captures := none, steps := 5 }

/-- C7 counterexample: the claim says a rule with an empty captures list
matches every job whose name contains the rule's name, but `matches` also
requires the job's `failure_captures` to be non-null.  The rule name "x" is a
substring of the job name "xy" and the captures list is empty, yet `matches`
returns `false` because `failure_captures` is null. -/
theorem flakyRule_matches_null_captures_cex :
    FlakyRule.matches ⟨"x", []⟩ (some jobNoCaptures) = false ∧
    substrb "x" jobNoCaptures.name = true ∧
    (⟨"x", []⟩ : FlakyRule).captures = [] := by
  refine ⟨rfl, by decide, rfl⟩

/-- C7 (amended): a `FlakyRule` matches a present job iff the rule's name is a
substring of the job's name, the job's `failure_captures` field is non-null,
and every capture of the rule occurs in that list; in particular a rule with an
empty captures list matches every job with non-null `failure_captures` whose
name contains the rule's name. -/
theorem flakyRule_matches_iff (rule : FlakyRule) (j : RocksetJob) :
    FlakyRule.matches rule (some j) = true ↔
      (substrb rule.name j.name = true ∧ j.failure_captures ≠ none ∧
        ∀ c ∈ rule.captures, c ∈ j.failure_captures.getD []) := by
  simp only [FlakyRule.matches, Bool.and_eq_true, List.all_eq_true, List.elem_iff,
    Option.isSome_iff_ne_none, decide_eq_true_eq]
  tauto

/-- Python `check_runs[checkname]` inside `categorize_checks`; the loop only
looks up names drawn from the dict's keys, so the default is never reached
there. -/
def categorize_entry (check_runs : JobNameToStateDict) (checkname : String) : JobCheckState :=
  (check_runs.lookup checkname).getD ⟨checkname, "", none, none⟩

/-- One iteration of the `for checkname in relevant_checknames` loop of
`categorize_checks`: the state is `(pending_checks, failed_checks,
ok_failed_checks)`. -/
def categorize_step (check_runs : JobNameToStateDict)
    (st : List (String × Option String) × List (String × Option String) ×
      List (String × Option String)) (checkname : String) :
    List (String × Option String) × List (String × Option String) ×
      List (String × Option String) :=
  let cr := categorize_entry check_runs checkname
  if cr.status.isNone then (st.1 ++ [(checkname, some cr.url)], st.2.1, st.2.2)
  else if ! is_passing_status cr.status then
    if cr.classification = some "BROKEN_TRUNK" ∨ cr.classification = some "FLAKY" then
      (st.1, st.2.1, st.2.2 ++ [(checkname, some cr.url)])
    else (st.1, st.2.1 ++ [(checkname, some cr.url)], st.2.2)
  else st

/-- Mirrors `categorize_checks(check_runs, required_checks,
ok_failed_checks_threshold)`.  The Python default threshold is 3; it is passed
explicitly here. -/
def categorize_checks (check_runs : JobNameToStateDict) (required_checks : List String)
    (ok_failed_checks_threshold : Nat) :
    List (String × Option String) × List (String × Option String) :=
  let names := check_runs.map Prod.fst
  let relevant_checknames := names.filter (fun name => required_checks.any (fun x => substrb x name))
  let pending0 := required_checks.foldl
    (fun acc checkname =>
      if names.all (fun x => ! substrb checkname x) then acc ++ [(checkname, (none : Option String))]
      else acc) []
  let final := relevant_checknames.foldl (categorize_step check_runs) (pending0, ([], []))
  if final.2.2.length > ok_failed_checks_threshold then (final.1, final.2.1 ++ final.2.2)
  else (final.1, final.2.1)

/-- Folding a conditional-append loop body equals appending the filtered,
mapped list (shape of the `pending_checks` accumulation loops). -/
theorem foldl_append_filter {α β : Type} (p : α → Bool) (f : α → β) :
    ∀ (l : List α) (acc : List β),
      l.foldl (fun a x => if p x then a ++ [f x] else a) acc = acc ++ (l.filter p).map f := by
  intro l
  induction l with
  | nil => intro acc; simp
  | cons x xs ih =>
      intro acc
      by_cases h : p x <;> simp [h, ih, List.filter_cons]

/-- Association-list lookup finds the stored value when the keys are distinct. -/
theorem lookup_eq_some_of_nodup {α : Type} (l : List (String × α)) (k : String) (v : α)
    (hnd : (l.map Prod.fst).Nodup) (hmem : (k, v) ∈ l) : l.lookup k = some v := by
  induction l with
  | nil => cases hmem
  | cons p t ih =>
      simp only [List.map_cons, List.nodup_cons] at hnd
      rcases List.mem_cons.mp hmem with h | h
      · subst h
        simp [List.lookup]
      · have hne : k ≠ p.1 := by
          intro hk
          exact hnd.1 (hk ▸ (List.mem_map.mpr ⟨(k, v), h, rfl⟩))
        simp only [List.lookup]
        have hb : (k == p.1) = false := beq_eq_false_iff_ne.mpr hne
        rw [hb]
        exact ih hnd.2 h

/-- A relevant check that failed but is classified FLAKY or BROKEN_TRUNK
(the `ok_failed_checks` bucket condition). -/
def okFailedCond (cr : JobCheckState) : Bool :=
  !cr.status.isNone && !is_passing_status cr.status &&
    decide (cr.classification = some "BROKEN_TRUNK" ∨ cr.classification = some "FLAKY")

/-- A relevant check that failed with no benign classification
(the `failed_checks` bucket condition). -/
def genuineFailCond (cr : JobCheckState) : Bool :=
  !cr.status.isNone && !is_passing_status cr.status &&
    !decide (cr.classification = some "BROKEN_TRUNK" ∨ cr.classification = some "FLAKY")

/-- The checks whose name contains some required pattern as a substring. -/
def relevantChecks (check_runs : JobNameToStateDict) (required_checks : List String) :
    List (String × JobCheckState) :=
  check_runs.filter (fun p => required_checks.any (fun x => substrb x p.1))

/-- The classification loop of `categorize_checks` routes every relevant name
into exactly one of the three buckets, each a filtered projection. -/
theorem categorize_fold (check_runs : JobNameToStateDict) (l : List String) :
    ∀ A B C : List (String × Option String),
      l.foldl (categorize_step check_runs) (A, B, C) =
      (A ++ (l.filter (fun n => (categorize_entry check_runs n).status.isNone)).map (fun n => (n, some (categorize_entry check_runs n).url)),
       B ++ (l.filter (fun n => genuineFailCond (categorize_entry check_runs n))).map (fun n => (n, some (categorize_entry check_runs n).url)),
       C ++ (l.filter (fun n => okFailedCond (categorize_entry check_runs n))).map (fun n => (n, some (categorize_entry check_runs n).url))) := by
  induction l with
  | nil => intro A B C; simp
  | cons x xs ih =>
      intro A B C
      simp only [List.foldl_cons, List.filter_cons, categorize_step]
      by_cases h1 : (categorize_entry check_runs x).status.isNone
      · have h2 : genuineFailCond (categorize_entry check_runs x) = false := by
          simp [genuineFailCond, h1]
        have h3 : okFailedCond (categorize_entry check_runs x) = false := by
          simp [okFailedCond, h1]
        simp only [h1, h2, h3, if_true, if_false, Bool.false_eq_true]
        rw [ih]
        try simp
      · by_cases h4 : is_passing_status (categorize_entry check_runs x).status
        · have h2 : genuineFailCond (categorize_entry check_runs x) = false := by
            simp [genuineFailCond, h4]
          have h3 : okFailedCond (categorize_entry check_runs x) = false := by
            simp [okFailedCond, h4]
          simp only [h1, h2, h3, if_false, Bool.false_eq_true, h4, Bool.not_true, ite_self]
          rw [ih]
          try simp [h4]
        · by_cases h5 : (categorize_entry check_runs x).classification = some "BROKEN_TRUNK" ∨
              (categorize_entry check_runs x).classification = some "FLAKY"
          · have h2 : genuineFailCond (categorize_entry check_runs x) = false := by
              simp [genuineFailCond, h5]
            have h3 : okFailedCond (categorize_entry check_runs x) = true := by
              simp [okFailedCond, h1, h4, h5]
            simp only [h1, h2, h3, h4, h5, if_false, if_true, Bool.false_eq_true, Bool.not_false]
            rw [ih]
            try simp
          · have h2 : genuineFailCond (categorize_entry check_runs x) = true := by
              simp [genuineFailCond, h1, h4, h5]
            have h3 : okFailedCond (categorize_entry check_runs x) = false := by
              simp [okFailedCond, h5]
            simp only [h1, h2, h3, h4, h5, if_false, if_true, Bool.false_eq_true, Bool.not_false]
            rw [ih]
            try simp

/-- Converting a bucket computed over relevant names (with dict lookups) into a
filtered projection of the underlying association list. -/
theorem bucket_eq (check_runs : JobNameToStateDict) (required_checks : List String)
    (q : JobCheckState → Bool)
    (hnd : (check_runs.map Prod.fst).Nodup) :
    (((check_runs.map Prod.fst).filter
        (fun name => required_checks.any (fun x => substrb x name))).filter
      (fun n => q (categorize_entry check_runs n))).map
      (fun n => (n, some (categorize_entry check_runs n).url)) =
    ((relevantChecks check_runs required_checks).filter (fun p => q p.2)).map
      (fun p => (p.1, some p.2.url)) := by
  have hent : ∀ p ∈ check_runs, categorize_entry check_runs p.1 = p.2 := by
    intro p hp
    have h := lookup_eq_some_of_nodup check_runs p.1 p.2 hnd (by simpa using hp)
    simp [categorize_entry, h]
  rw [List.filter_map, List.filter_map, List.map_map, List.filter_filter]
  rw [relevantChecks, List.filter_filter]
  have hP : check_runs.filter
      (fun a => q (categorize_entry check_runs (Prod.fst a)) &&
        (fun name => required_checks.any fun x => substrb x name) (Prod.fst a)) =
      check_runs.filter
      (fun p => q p.2 && (fun name => required_checks.any fun x => substrb x name) (Prod.fst p)) := by
    apply List.filter_congr
    intro p hp
    rw [hent p hp]
  simp only [Function.comp] at hP ⊢
  rw [hP]
  apply List.map_eq_map_iff.mpr
  intro p hp
  have hmem : p ∈ check_runs := List.mem_of_mem_filter hp
  simp only [Function.comp_apply]
  rw [hent p hmem]

/-- All-quantification over a mapped list. -/
theorem all_map_gen {α β : Type} (f : α → β) (l : List α) (p : β → Bool) :
    (l.map f).all p = l.all (fun a => p (f a)) := by
  induction l with
  | nil => rfl
  | cons x xs ih => simp [ih]

/-- C2: `categorize_checks` selects as relevant every check whose name contains
some required pattern as a substring; every required pattern contained in no
check name contributes a `(pattern, nil)` pending entry; a relevant check with
nil status goes to pending; a non-passing relevant check classified FLAKY or
BROKEN_TRUNK goes to the ok-failed bucket, any other non-passing relevant
check goes to failed; and the whole ok-failed bucket is appended to failed
exactly when it holds strictly more than `ok_failed_checks_threshold`
entries. -/
theorem categorize_checks_partition (check_runs : JobNameToStateDict)
    (required_checks : List String) (t : Nat)
    (hnd : (check_runs.map Prod.fst).Nodup) :
    categorize_checks check_runs required_checks t =
      ((required_checks.filter (fun c => check_runs.all (fun p => ! substrb c p.1))).map
          (fun c => (c, (none : Option String)))
        ++ ((relevantChecks check_runs required_checks).filter
            (fun p => p.2.status.isNone)).map (fun p => (p.1, some p.2.url)),
       ((relevantChecks check_runs required_checks).filter
            (fun p => genuineFailCond p.2)).map (fun p => (p.1, some p.2.url))
        ++ (if (((relevantChecks check_runs required_checks).filter
              (fun p => okFailedCond p.2)).map (fun p => (p.1, some p.2.url))).length > t then
              ((relevantChecks check_runs required_checks).filter
                (fun p => okFailedCond p.2)).map (fun p => (p.1, some p.2.url))
            else [])) := by
  have hpend := foldl_append_filter
    (fun checkname => (check_runs.map Prod.fst).all (fun x => ! substrb checkname x))
    (fun checkname => (checkname, (none : Option String))) required_checks []
  have hfold := categorize_fold check_runs
    ((check_runs.map Prod.fst).filter
      (fun name => required_checks.any (fun x => substrb x name)))
  have hb1 := bucket_eq check_runs required_checks (fun cr => cr.status.isNone) hnd
  have hb2 := bucket_eq check_runs required_checks genuineFailCond hnd
  have hb3 := bucket_eq check_runs required_checks okFailedCond hnd
  simp only [categorize_checks]
  rw [hpend, hfold]
  simp only [List.nil_append, List.nil_append]
  rw [hb1, hb2, hb3]
  have hall : (fun checkname => (List.map Prod.fst check_runs).all fun x => ! substrb checkname x)
      = (fun c => List.all check_runs fun p => ! substrb c p.1) := by
    funext c
    rw [all_map_gen]
  rw [hall]
  by_cases hc : (List.map (fun p => (p.1, some p.2.url))
      (List.filter (fun p => okFailedCond p.2)
        (relevantChecks check_runs required_checks))).length > t
  · simp only [hc, if_true, if_pos]
  · simp only [hc, if_false, if_neg, not_false_iff, List.append_nil]
    try simp [hc]

/-- Replacing the value stored at `key` in an association list (Python dict
assignment for an existing key keeps its position). -/
def setk {α : Type} (d : List (String × α)) (key : String) (val : α) :
    List (String × α) :=
  d.map (fun p => if p.1 = key then (key, val) else p)

/-- Mirrors the local function `insert(d, key, val)` of `get_classifications`:
a fresh key stores the record; a stored record with conclusion `success` is
kept; otherwise the incoming record replaces the stored one exactly when its
`id` is strictly larger. -/
def insert (d : List (String × RocksetJob)) (key : String) (val : RocksetJob) :
    List (String × RocksetJob) :=
  match d.lookup key with
  | none => d ++ [(key, val)]
  | some cur =>
      if cur.conclusion = some "success" then d
      else if cur.id < val.id then setk d key val
      else d

/-- Lookup after `setk` returns the new value when the key was present. -/
theorem lookup_setk {α : Type} (d : List (String × α)) (key : String) (val : α)
    (h : (d.lookup key).isSome) : (setk d key val).lookup key = some val := by
  induction d with
  | nil => simp [List.lookup] at h
  | cons p t ih =>
      by_cases hk : p.1 = key
      · simp only [setk, List.map_cons, if_pos hk]
        simp [List.lookup]
      · have hpk : (key == p.1) = false := beq_eq_false_iff_ne.mpr (fun hkk => hk hkk.symm)
        simp only [List.lookup, hpk] at h
        simp only [setk, List.map_cons, if_neg hk]
        simp only [List.lookup, hpk]
        exact ih h

/-- C6: the historical-job insertion rule.  For a key not yet present the new
record is stored; for a repeated key a stored record whose conclusion is
`success` is never replaced; otherwise the record with the strictly higher id
is the one found under the key afterwards. -/
theorem insert_merge_rule (d : List (String × RocksetJob)) (key : String) (val : RocksetJob) :
    (d.lookup key = none → insert d key val = d ++ [(key, val)]) ∧
    (∀ cur, d.lookup key = some cur → cur.conclusion = some "success" →
      insert d key val = d) ∧
    (∀ cur, d.lookup key = some cur → cur.conclusion ≠ some "success" →
      ((cur.id < val.id → (insert d key val).lookup key = some val) ∧
       (val.id ≤ cur.id → insert d key val = d))) := by
  refine ⟨?_, ?_, ?_⟩
  · intro h
    simp [insert, h]
  · intro cur hcur hsucc
    simp [insert, hcur, hsucc]
  · intro cur hcur hsucc
    constructor
    · intro hid
      have : insert d key val = setk d key val := by
        simp [insert, hcur, hsucc, hid]
      rw [this]
      exact lookup_setk d key val (by simp [hcur])
    · intro hid
      have hlt : ¬ cur.id < val.id := Nat.not_lt.mpr hid
      simp [insert, hcur, hsucc, hlt]

/-- C6 witness at concrete inputs. -/
theorem insert_merge_rule_witness :
    ([] : List (String × RocksetJob)).lookup "w / j" = none ∧
    insert [] "w / j" jobNoCaptures = [("w / j", jobNoCaptures)] := by
  refine ⟨rfl, (insert_merge_rule [] "w / j" jobNoCaptures).1 rfl⟩

/-- The two historical-job maps built by `get_classifications` from the Rockset
rows: rows whose `head_sha` equals the PR head go into the first map, all other
rows into the second, keyed by `"<workflow_name> / <name>"` and merged with
`insert`. -/
def build_rockset_maps (head_sha : String) (rockset_results : List RocksetJob) :
    List (String × RocksetJob) × List (String × RocksetJob) :=
  rockset_results.foldl
    (fun maps rockset_result =>
      let name := rockset_result.workflow_name ++ " / " ++ rockset_result.name
      if rockset_result.head_sha = head_sha then (insert maps.1 name rockset_result, maps.2)
      else (maps.1, insert maps.2 name rockset_result))
    ([], [])

/-- The broken-trunk condition of `get_classifications`: both jobs exist with
equal conclusion and equal failure captures. -/
def broken_trunk_cond (hjo mjo : Option RocksetJob) : Bool :=
  match hjo, mjo with
  | some hj, some mj =>
      decide (hj.conclusion = mj.conclusion) && decide (hj.failure_captures = mj.failure_captures)
  | _, _ => false

/-- The crashed-before-any-step condition of `get_classifications`: the
head-sha job exists and ran at most one step. -/
def flaky_steps_cond (hjo : Option RocksetJob) : Bool :=
  match hjo with
  | some hj => decide (hj.steps ≤ 1)
  | none => false

/-- The body of the `for name, check in checks.items()` loop of
`get_classifications`, applied to one check. -/
def classify_check (flaky_rules : List FlakyRule)
    (head_sha_jobs merge_base_jobs : List (String × RocksetJob))
    (name : String) (check : JobCheckState) : JobCheckState :=
  if check.status = some "SUCCESS" then check
  else
    let head_sha_job := head_sha_jobs.lookup name
    let merge_base_job := merge_base_jobs.lookup name
    if broken_trunk_cond head_sha_job merge_base_job then
      { check with classification := some "BROKEN_TRUNK" }
    else if flaky_steps_cond head_sha_job then
      { check with classification := some "FLAKY" }
    else if flaky_rules.any (fun rule => rule.matches head_sha_job) then
      { check with classification := some "FLAKY" }
    else check

/-- Mirrors `get_classifications(head_sha, merge_base, checks)`.  The flaky
rules and the Rockset rows are fetched over the network in the script and are
passed in here; `merge_base` only appears inside the SQL query text, the
routing of rows is by `head_sha` equality alone. -/
def get_classifications (head_sha : String) (flaky_rules : List FlakyRule)
    (rockset_results : List RocksetJob) (checks : JobNameToStateDict) : JobNameToStateDict :=
  let maps := build_rockset_maps head_sha rockset_results
  checks.map (fun p => (p.1, classify_check flaky_rules maps.1 maps.2 p.1 p.2))

/-- Lookup in a key-preserving value map. -/
theorem lookup_map_val {α β : Type} (g : String → α → β) (l : List (String × α)) (k : String) :
    (l.map (fun p => (p.1, g p.1 p.2))).lookup k = (l.lookup k).map (fun v => g k v) := by
  induction l with
  | nil => rfl
  | cons p t ih =>
      simp only [List.map_cons, List.lookup]
      cases hb : (k == p.1) with
      | true =>
          have hk : k = p.1 := eq_of_beq hb
          simp [hk]
      | false => simpa using ih

/-- Unfolding of the broken-trunk test. -/
theorem broken_trunk_cond_iff (hjo mjo : Option RocksetJob) :
    broken_trunk_cond hjo mjo = true ↔
      ∃ hj mj, hjo = some hj ∧ mjo = some mj ∧
        hj.conclusion = mj.conclusion ∧ hj.failure_captures = mj.failure_captures := by
  cases hjo <;> cases mjo <;> simp [broken_trunk_cond]

/-- Unfolding of the steps test. -/
theorem flaky_steps_cond_iff (hjo : Option RocksetJob) :
    flaky_steps_cond hjo = true ↔ ∃ hj, hjo = some hj ∧ hj.steps ≤ 1 := by
  cases hjo <;> simp [flaky_steps_cond]

/-- C3: for a check with status not SUCCESS, the classifier assigns
BROKEN_TRUNK when head-sha and merge-base jobs of the same name exist with
equal conclusion and equal failure captures; otherwise FLAKY when the head-sha
job exists with at most one step; otherwise FLAKY when some flaky rule matches
the head-sha job; otherwise the classification is left unchanged.  Checks with
status SUCCESS are returned untouched. -/
theorem get_classifications_spec (head_sha : String) (flaky_rules : List FlakyRule)
    (rockset_results : List RocksetJob) (checks : JobNameToStateDict)
    (name : String) (check : JobCheckState)
    (hmem : (name, check) ∈ checks)
    (hnd : (checks.map Prod.fst).Nodup) :
    ∃ out, (get_classifications head_sha flaky_rules rockset_results checks).lookup name
        = some out ∧
      (check.status = some "SUCCESS" → out = check) ∧
      (check.status ≠ some "SUCCESS" →
        out.name = check.name ∧ out.url = check.url ∧ out.status = check.status ∧
        (let hm := (build_rockset_maps head_sha rockset_results).1
         let mm := (build_rockset_maps head_sha rockset_results).2
         ((∃ hj mj, hm.lookup name = some hj ∧ mm.lookup name = some mj ∧
            hj.conclusion = mj.conclusion ∧ hj.failure_captures = mj.failure_captures) →
            out.classification = some "BROKEN_TRUNK") ∧
         (¬ (∃ hj mj, hm.lookup name = some hj ∧ mm.lookup name = some mj ∧
              hj.conclusion = mj.conclusion ∧ hj.failure_captures = mj.failure_captures) →
            (∃ hj, hm.lookup name = some hj ∧ hj.steps ≤ 1) →
            out.classification = some "FLAKY") ∧
         (¬ (∃ hj mj, hm.lookup name = some hj ∧ mm.lookup name = some mj ∧
              hj.conclusion = mj.conclusion ∧ hj.failure_captures = mj.failure_captures) →
            ¬ (∃ hj, hm.lookup name = some hj ∧ hj.steps ≤ 1) →
            (∃ rule ∈ flaky_rules, rule.matches (hm.lookup name) = true) →
            out.classification = some "FLAKY") ∧
         (¬ (∃ hj mj, hm.lookup name = some hj ∧ mm.lookup name = some mj ∧
              hj.conclusion = mj.conclusion ∧ hj.failure_captures = mj.failure_captures) →
            ¬ (∃ hj, hm.lookup name = some hj ∧ hj.steps ≤ 1) →
            ¬ (∃ rule ∈ flaky_rules, rule.matches (hm.lookup name) = true) →
            out.classification = check.classification))) := by
  have hlk : (checks.lookup name) = some check :=
    lookup_eq_some_of_nodup checks name check hnd hmem
  have hmap := lookup_map_val
    (fun n c => classify_check flaky_rules (build_rockset_maps head_sha rockset_results).1
      (build_rockset_maps head_sha rockset_results).2 n c) checks name
  refine ⟨classify_check flaky_rules (build_rockset_maps head_sha rockset_results).1
    (build_rockset_maps head_sha rockset_results).2 name check, ?_, ?_, ?_⟩
  · rw [get_classifications]
    rw [hmap, hlk]
    rfl
  · intro hs
    simp [classify_check, hs]
  · intro hs
    set hm := (build_rockset_maps head_sha rockset_results).1 with hhm
    set mm := (build_rockset_maps head_sha rockset_results).2 with hmm
    by_cases hbt : broken_trunk_cond (hm.lookup name) (mm.lookup name) = true
    · have hbtp := (broken_trunk_cond_iff _ _).mp hbt
      refine ⟨by simp [classify_check, hs, hbt], by simp [classify_check, hs, hbt],
        by simp [classify_check, hs, hbt], ?_, ?_, ?_, ?_⟩
      · intro _; simp [classify_check, hs, hbt]
      · intro hc; exact absurd hbtp hc
      · intro hc; exact absurd hbtp hc
      · intro hc; exact absurd hbtp hc
    · have hbtp : ¬ (∃ hj mj, hm.lookup name = some hj ∧ mm.lookup name = some mj ∧
          hj.conclusion = mj.conclusion ∧ hj.failure_captures = mj.failure_captures) :=
        fun hc => hbt ((broken_trunk_cond_iff _ _).mpr hc)
      by_cases hst : flaky_steps_cond (hm.lookup name) = true
      · have hstp := (flaky_steps_cond_iff _).mp hst
        refine ⟨by simp [classify_check, hs, hbt, hst], by simp [classify_check, hs, hbt, hst],
          by simp [classify_check, hs, hbt, hst], ?_, ?_, ?_, ?_⟩
        · intro hc; exact absurd hc hbtp
        · intro _ _; simp [classify_check, hs, hbt, hst]
        · intro _ hc; exact absurd hstp hc
        · intro _ hc; exact absurd hstp hc
      · have hstp : ¬ (∃ hj, hm.lookup name = some hj ∧ hj.steps ≤ 1) :=
          fun hc => hst ((flaky_steps_cond_iff _).mpr hc)
        by_cases hfr : flaky_rules.any (fun rule => rule.matches (hm.lookup name)) = true
        · have hfrp := List.any_eq_true.mp hfr
          refine ⟨by simp [classify_check, hs, hbt, hst, hfr],
            by simp [classify_check, hs, hbt, hst, hfr],
            by simp [classify_check, hs, hbt, hst, hfr], ?_, ?_, ?_, ?_⟩
          · intro hc; exact absurd hc hbtp
          · intro _ hc; exact absurd hc hstp
          · intro _ _ _; simp [classify_check, hs, hbt, hst, hfr]
          · intro _ _ hc
            exact absurd (by simpa using hfrp) hc
        · refine ⟨by simp [classify_check, hs, hbt, hst, hfr],
            by simp [classify_check, hs, hbt, hst, hfr],
            by simp [classify_check, hs, hbt, hst, hfr], ?_, ?_, ?_, ?_⟩
          · intro hc; exact absurd hc hbtp
          · intro _ hc; exact absurd hc hstp
          · intro _ _ hc
            exact absurd (List.any_eq_true.mpr (by simpa using hc)) hfr
          · intro _ _ _; simp [classify_check, hs, hbt, hst, hfr]

/-- A concrete head-sha job used in the C3 witness. -/
def hsJob : RocksetJob :=
  { workflow_name := "w", name := "j", id := 1, conclusion := some "failure",
    head_sha := "h", failure_captures := some ["err"], steps := 5 }

/-- A concrete merge-base job used in the C3 witness. -/
def mbJob : RocksetJob :=
  { workflow_name := "w", name := "j", id := 2, conclusion := some "failure",
    head_sha := "m", failure_captures := some ["err"], steps := 5 }

/-- C3 witness: a failing check whose head-sha and merge-base jobs agree is
classified BROKEN_TRUNK. -/
theorem get_classifications_witness :
    ∃ out,
      (get_classifications "h" [] [hsJob, mbJob]
        [("w / j", ⟨"w / j", "u", some "FAILURE", none⟩)]).lookup "w / j" = some out ∧
      out.classification = some "BROKEN_TRUNK" := by
  obtain ⟨out, hlk, _, hns⟩ := get_classifications_spec "h" [] [hsJob, mbJob]
    [("w / j", ⟨"w / j", "u", some "FAILURE", none⟩)]
    "w / j" ⟨"w / j", "u", some "FAILURE", none⟩ (by simp) (by simp)
  refine ⟨out, hlk, ?_⟩
  obtain ⟨-, -, -, hbt, -, -, -⟩ := hns (by simp)
  apply hbt
  exact ⟨hsJob, mbJob, rfl, rfl, rfl, rfl⟩

/-- One check run node of a check suite, as read by
`add_workflow_conclusions` (fields `name`, `conclusion`, `detailsUrl`). -/
structure CheckRunNode where
  name : String
  conclusion : Option String
  detailsUrl : String
deriving DecidableEq, Repr

/-- The `workflowRun` of a check suite node: the workflow name and its url. -/
structure WorkflowRunNode where
  workflow_name : String
  url : String
deriving DecidableEq, Repr

/-- One check suite edge node.  The script's check-runs pagination callbacks
are network continuations, so the runs of a suite are modelled as the already
exhausted list. -/
structure CheckSuiteNode where
  workflowRun : Option WorkflowRunNode
  conclusion : Option String
  checkRuns : List CheckRunNode
deriving DecidableEq, Repr

/-- Mirrors class `WorkflowCheckState` (fields `name`, `url`, `status`,
`jobs`). -/
structure WorkflowCheckState where
  name : String
  url : String
  status : Option String
  jobs : JobNameToStateDict
deriving DecidableEq, Repr

/-- Mirrors `get_check_run_name_prefix(workflow_run)`. -/
def check_run_name_pre (workflow_run : Option WorkflowRunNode) : String :=
  match workflow_run with
  | none => ""
  | some wr => wr.workflow_name ++ " / "

/-- Generic Python dict assignment `d[key] = val` on an association list. -/
def dset {α : Type} (d : List (String × α)) (key : String) (val : α) :
    List (String × α) :=
  if (d.lookup key).isSome then setk d key val else d ++ [(key, val)]

/-- The body of the `for checkrun_node in checkruns["nodes"]` loop: a run is
written into the jobs map unless an existing entry already has a passing
status. -/
def insert_checkrun (jobs : JobNameToStateDict) (workflow_run : Option WorkflowRunNode)
    (checkrun_node : CheckRunNode) : JobNameToStateDict :=
  let checkrun_name := check_run_name_pre workflow_run ++ checkrun_node.name
  match jobs.lookup checkrun_name with
  | some existing_checkrun =>
      if is_passing_status existing_checkrun.status then jobs
      else setk jobs checkrun_name
        ⟨checkrun_name, checkrun_node.detailsUrl, checkrun_node.conclusion, none⟩
  | none =>
      jobs ++ [(checkrun_name,
        ⟨checkrun_name, checkrun_node.detailsUrl, checkrun_node.conclusion, none⟩)]

/-- In-place update of the jobs map of the workflow stored under `wname`. -/
def update_jobs (workflows : List (String × WorkflowCheckState)) (wname : String)
    (f : JobNameToStateDict → JobNameToStateDict) : List (String × WorkflowCheckState) :=
  workflows.map (fun p => if p.1 = wname then (p.1, { p.2 with jobs := f p.2.jobs }) else p)

/-- The body of `add_conclusions` for one suite edge: the state is the
`workflows` dict paired with the synthetic `no_workflow_obj`. -/
def process_suite (st : List (String × WorkflowCheckState) × WorkflowCheckState)
    (node : CheckSuiteNode) :
    List (String × WorkflowCheckState) × WorkflowCheckState :=
  match node.workflowRun with
  | none =>
      (st.1, { st.2 with
        jobs := node.checkRuns.foldl (fun js cr => insert_checkrun js none cr) st.2.jobs })
  | some workflow_run =>
      let workflow_name := workflow_run.workflow_name
      if node.conclusion = some "CANCELLED" ∧ (st.1.lookup workflow_name).isSome then st
      else
        let workflows :=
          if (st.1.lookup workflow_name).isSome then st.1
          else st.1 ++ [(workflow_name,
            ⟨workflow_name, workflow_run.url, node.conclusion, []⟩)]
        (update_jobs workflows workflow_name
          (fun js => node.checkRuns.foldl
            (fun a cr => insert_checkrun a (some workflow_run) cr) js),
         st.2)

/-- Mirrors `add_workflow_conclusions(checksuites, ...)` with the pagination
already flattened into one list of suite nodes: process every suite, then
flatten workflows into a single name-to-job dict (workflows with jobs
contribute only their jobs, empty workflows contribute one entry under the
workflow name), and finally merge in the `no_workflow_obj` jobs. -/
def add_workflow_conclusions (checksuites : List CheckSuiteNode) : JobNameToStateDict :=
  let st := checksuites.foldl process_suite ([], ⟨"", "", none, []⟩)
  let res := st.1.foldl
    (fun res p =>
      if p.2.jobs.length > 0 then p.2.jobs.foldl (fun r q => dset r q.1 q.2) res
      else dset res p.1 ⟨p.2.name, p.2.url, p.2.status, none⟩)
    []
  st.2.jobs.foldl (fun r q => dset r q.1 q.2) res

/-- First suite of the C4 counterexample: workflow `w`, conclusion CANCELLED,
no check runs. -/
def suiteA : CheckSuiteNode := ⟨some ⟨"w", "u1"⟩, some "CANCELLED", []⟩

/-- Second suite of the C4 counterexample: workflow `w`, conclusion SUCCESS,
no check runs. -/
def suiteB : CheckSuiteNode := ⟨some ⟨"w", "u2"⟩, some "SUCCESS", []⟩

/-- C4 counterexample: the claim says that for every workflow name the first
NON-CANCELLED suite's result is the one kept.  With a cancelled suite first
and a successful rerun second, the kept status for workflow `w` is CANCELLED
(the first suite fixes the status; the later non-cancelled suite is processed
but never overrides it), not the SUCCESS of the first non-cancelled suite. -/
theorem add_workflow_conclusions_first_noncancelled_cex :
    add_workflow_conclusions [suiteA, suiteB] = [("w", ⟨"w", "u1", some "CANCELLED", none⟩)] ∧
    suiteA.conclusion = some "CANCELLED" ∧
    suiteB.conclusion = some "SUCCESS" ∧
    suiteB.workflowRun = some ⟨"w", "u2"⟩ ∧
    some "CANCELLED" ≠ some "SUCCESS" := by
  refine ⟨by decide, rfl, rfl, rfl, by decide⟩

/-- Appending on the right cannot change a successful lookup. -/
theorem lookup_append_some {α : Type} (d l : List (String × α)) (k : String) (v : α)
    (h : d.lookup k = some v) : (d ++ l).lookup k = some v := by
  induction d with
  | nil => simp [List.lookup] at h
  | cons p t ih =>
      simp only [List.lookup] at h ⊢
      cases hb : (k == p.1) with
      | true => simpa [hb] using h
      | false =>
          rw [hb] at h
          simpa [hb] using ih h

/-- Appending a fresh key stores its value. -/
theorem lookup_append_self {α : Type} (d : List (String × α)) (k : String) (v : α)
    (h : d.lookup k = none) : (d ++ [(k, v)]).lookup k = some v := by
  induction d with
  | nil => simp [List.lookup]
  | cons p t ih =>
      simp only [List.lookup] at h ⊢
      cases hb : (k == p.1) with
      | true => rw [hb] at h; cases h
      | false =>
          rw [hb] at h
          simpa [hb] using ih h

/-- Appending an unrelated key keeps a lookup failing. -/
theorem lookup_append_none {α : Type} (d : List (String × α)) (k k' : String) (v : α)
    (h : d.lookup k = none) (hne : k ≠ k') : (d ++ [(k', v)]).lookup k = none := by
  induction d with
  | nil => simp [List.lookup, beq_eq_false_iff_ne.mpr hne]
  | cons p t ih =>
      simp only [List.lookup] at h ⊢
      cases hb : (k == p.1) with
      | true => rw [hb] at h; cases h
      | false =>
          rw [hb] at h
          simpa [hb] using ih h

/-- Lookup through `update_jobs`: only the `jobs` field of the entry stored
under the updated name can change. -/
theorem lookup_update_jobs (ws : List (String × WorkflowCheckState)) (wname : String)
    (f : JobNameToStateDict → JobNameToStateDict) (w : String) :
    (update_jobs ws wname f).lookup w =
      (ws.lookup w).map (fun wf => if w = wname then { wf with jobs := f wf.jobs } else wf) := by
  induction ws with
  | nil => rfl
  | cons p t ih =>
      simp only [update_jobs, List.map_cons]
      by_cases hp : p.1 = wname
      · rw [if_pos hp]
        simp only [List.lookup]
        cases hb : (w == p.1) with
        | true =>
            have hw : w = p.1 := eq_of_beq hb
            simp [hw, hp]
        | false =>
            simpa [hb] using ih
      · rw [if_neg hp]
        simp only [List.lookup]
        cases hb : (w == p.1) with
        | true =>
            have hw : w = p.1 := eq_of_beq hb
            simp [hw, hp]
        | false =>
            simpa [hb] using ih

/-- One suite cannot change the name, url or status of an already recorded
workflow (only its jobs map). -/
theorem process_suite_preserves (st : List (String × WorkflowCheckState) × WorkflowCheckState)
    (node : CheckSuiteNode) (w : String) (wf : WorkflowCheckState)
    (h : st.1.lookup w = some wf) :
    ∃ wf', (process_suite st node).1.lookup w = some wf' ∧
      wf'.name = wf.name ∧ wf'.url = wf.url ∧ wf'.status = wf.status := by
  cases hwr : node.workflowRun with
  | none =>
      refine ⟨wf, ?_, rfl, rfl, rfl⟩
      simp only [process_suite, hwr]
      exact h
  | some wr =>
      simp only [process_suite, hwr]
      by_cases hc : node.conclusion = some "CANCELLED" ∧ (st.1.lookup wr.workflow_name).isSome
      · rw [if_pos hc]
        exact ⟨wf, h, rfl, rfl, rfl⟩
      · rw [if_neg hc]
        by_cases hp : (st.1.lookup wr.workflow_name).isSome
        · rw [if_pos hp, lookup_update_jobs, h]
          by_cases hww : w = wr.workflow_name
          · refine ⟨{ wf with jobs := node.checkRuns.foldl (fun a cr => insert_checkrun a (some wr) cr) wf.jobs }, ?_, rfl, rfl, rfl⟩
            simp [hww]
          · exact ⟨wf, by simp [hww], rfl, rfl, rfl⟩
        · rw [if_neg hp, lookup_update_jobs,
            lookup_append_some st.1 _ w wf h]
          by_cases hww : w = wr.workflow_name
          · refine ⟨{ wf with jobs := node.checkRuns.foldl (fun a cr => insert_checkrun a (some wr) cr) wf.jobs }, ?_, rfl, rfl, rfl⟩
            simp [hww]
          · exact ⟨wf, by simp [hww], rfl, rfl, rfl⟩

/-- Iterated version of `process_suite_preserves` over a list of suites. -/
theorem fold_suites_preserves (suites : List CheckSuiteNode) :
    ∀ (st : List (String × WorkflowCheckState) × WorkflowCheckState) (w : String)
      (wf : WorkflowCheckState), st.1.lookup w = some wf →
      ∃ wf', (suites.foldl process_suite st).1.lookup w = some wf' ∧
        wf'.name = wf.name ∧ wf'.url = wf.url ∧ wf'.status = wf.status := by
  induction suites with
  | nil => intro st w wf h; exact ⟨wf, h, rfl, rfl, rfl⟩
  | cons node rest ih =>
      intro st w wf h
      obtain ⟨wf1, h1, hn1, hu1, hs1⟩ := process_suite_preserves st node w wf h
      obtain ⟨wf2, h2, hn2, hu2, hs2⟩ := ih (process_suite st node) w wf1 h1
      exact ⟨wf2, h2, hn2.trans hn1, hu2.trans hu1, hs2.trans hs1⟩

/-- Whether a suite node carries a workflow run of the given name. -/
def suite_names_workflow (w : String) (node : CheckSuiteNode) : Bool :=
  match node.workflowRun with
  | some wr => decide (wr.workflow_name = w)
  | none => false

/-- A suite that does not name `w` leaves the entry for `w` absent. -/
theorem process_suite_other_none (st : List (String × WorkflowCheckState) × WorkflowCheckState)
    (node : CheckSuiteNode) (w : String)
    (h : st.1.lookup w = none) (hsel : suite_names_workflow w node = false) :
    (process_suite st node).1.lookup w = none := by
  cases hwr : node.workflowRun with
  | none =>
      simp only [process_suite, hwr]
      exact h
  | some wr =>
      have hne : wr.workflow_name ≠ w := by
        simp only [suite_names_workflow, hwr] at hsel
        simpa using hsel
      simp only [process_suite, hwr]
      by_cases hc : node.conclusion = some "CANCELLED" ∧ (st.1.lookup wr.workflow_name).isSome
      · rw [if_pos hc]
        exact h
      · rw [if_neg hc]
        by_cases hp : (st.1.lookup wr.workflow_name).isSome
        · rw [if_pos hp, lookup_update_jobs, h]
          rfl
        · rw [if_neg hp, lookup_update_jobs,
            lookup_append_none st.1 w wr.workflow_name _ h (fun hk => hne hk.symm)]
          rfl

/-- The first suite naming a workflow fixes the recorded name, url and status
for all later suites. -/
theorem fold_suites_creates (suites : List CheckSuiteNode) :
    ∀ (st : List (String × WorkflowCheckState) × WorkflowCheckState) (w : String),
      st.1.lookup w = none →
      (match suites.find? (suite_names_workflow w) with
       | none => (suites.foldl process_suite st).1.lookup w = none
       | some node0 => ∃ wr0 wf', node0.workflowRun = some wr0 ∧
           (suites.foldl process_suite st).1.lookup w = some wf' ∧
           wf'.name = w ∧ wf'.url = wr0.url ∧ wf'.status = node0.conclusion) := by
  induction suites with
  | nil =>
      intro st w h
      simpa using h
  | cons node rest ih =>
      intro st w h
      by_cases hsel : suite_names_workflow w node = true
      · rw [List.find?_cons_of_pos _ hsel]
        obtain ⟨wr, hwr, hname⟩ : ∃ wr, node.workflowRun = some wr ∧ wr.workflow_name = w := by
          cases hwr : node.workflowRun with
          | none => simp [suite_names_workflow, hwr] at hsel
          | some wr =>
              simp only [suite_names_workflow, hwr, decide_eq_true_eq] at hsel
              exact ⟨wr, rfl, hsel⟩
        have hfirst : (process_suite st node).1.lookup w =
            some ⟨w, wr.url, node.conclusion,
              node.checkRuns.foldl (fun a cr => insert_checkrun a (some wr) cr) []⟩ := by
          simp only [process_suite, hwr]
          have hcfalse : ¬ (node.conclusion = some "CANCELLED" ∧
              (st.1.lookup wr.workflow_name).isSome) := by
            rintro ⟨-, hsome⟩
            rw [hname, h] at hsome
            cases hsome
          rw [if_neg hcfalse]
          have hpfalse : ¬ (st.1.lookup wr.workflow_name).isSome := by
            rw [hname, h]
            simp
          rw [if_neg hpfalse, lookup_update_jobs,
            hname, lookup_append_self st.1 w _ h]
          simp
        obtain ⟨wf', h2, hn2, hu2, hs2⟩ :=
          fold_suites_preserves rest (process_suite st node) w _ hfirst
        exact ⟨wr, wf', hwr, by simpa using h2, hn2, hu2, hs2⟩
      · have hself : suite_names_workflow w node = false := by
          simpa using hsel
        rw [List.find?_cons_of_neg _ (by simp [hself])]
        have h1 : (process_suite st node).1.lookup w = none :=
          process_suite_other_none st node w h hself
        have := ih (process_suite st node) w h1
        simpa using this

/-- C4 (amended): in the check aggregator, a suite whose conclusion is
CANCELLED is skipped whenever a workflow of the same name has already been
recorded; for every workflow name it is the FIRST suite naming it (cancelled
or not) that fixes the recorded name, url and status, which later suites never
override; and a check run is inserted into a workflow's jobs map unless an
existing entry under the same name already has a passing status, in which case
the existing passing entry is preserved. -/
theorem add_workflow_conclusions_rules :
    (∀ (st : List (String × WorkflowCheckState) × WorkflowCheckState) (node : CheckSuiteNode)
      (wr : WorkflowRunNode), node.workflowRun = some wr →
      node.conclusion = some "CANCELLED" → (st.1.lookup wr.workflow_name).isSome →
      process_suite st node = st) ∧
    (∀ (suites : List CheckSuiteNode) (w : String),
      match suites.find? (suite_names_workflow w) with
      | none => (suites.foldl process_suite ([], ⟨"", "", none, []⟩)).1.lookup w = none
      | some node0 => ∃ wr0 wf',
          node0.workflowRun = some wr0 ∧
          (suites.foldl process_suite ([], ⟨"", "", none, []⟩)).1.lookup w = some wf' ∧
          wf'.name = w ∧ wf'.url = wr0.url ∧ wf'.status = node0.conclusion) ∧
    (∀ (jobs : JobNameToStateDict) (wro : Option WorkflowRunNode) (cr : CheckRunNode),
      (jobs.lookup (check_run_name_pre wro ++ cr.name) = none →
        insert_checkrun jobs wro cr = jobs ++ [(check_run_name_pre wro ++ cr.name,
          ⟨check_run_name_pre wro ++ cr.name, cr.detailsUrl, cr.conclusion, none⟩)]) ∧
      (∀ ex, jobs.lookup (check_run_name_pre wro ++ cr.name) = some ex →
        is_passing_status ex.status = true → insert_checkrun jobs wro cr = jobs) ∧
      (∀ ex, jobs.lookup (check_run_name_pre wro ++ cr.name) = some ex →
        is_passing_status ex.status = false →
        (insert_checkrun jobs wro cr).lookup (check_run_name_pre wro ++ cr.name) =
          some ⟨check_run_name_pre wro ++ cr.name, cr.detailsUrl, cr.conclusion, none⟩)) := by
  refine ⟨?_, ?_, ?_⟩
  · intro st node wr hwr hcan hsome
    simp only [process_suite, hwr]
    rw [if_pos ⟨hcan, hsome⟩]
  · intro suites w
    exact fold_suites_creates suites ([], ⟨"", "", none, []⟩) w rfl
  · intro jobs wro cr
    refine ⟨?_, ?_, ?_⟩
    · intro h
      simp only [insert_checkrun, h]
    · intro ex hex hpass
      simp only [insert_checkrun, hex, hpass, if_true]
    · intro ex hex hpass
      simp only [insert_checkrun, hex, hpass, Bool.false_eq_true, if_false]
      exact lookup_setk jobs _ _ (by simp [hex])

/-- C4 witness: a cancelled rerun suite for an already recorded workflow is
skipped, leaving the aggregator state unchanged. -/
theorem add_workflow_conclusions_rules_witness :
    process_suite ([("w", ⟨"w", "u0", some "SUCCESS", []⟩)], ⟨"", "", none, []⟩) suiteA =
      ([("w", ⟨"w", "u0", some "SUCCESS", []⟩)], ⟨"", "", none, []⟩) :=
  add_workflow_conclusions_rules.1
    ([("w", ⟨"w", "u0", some "SUCCESS", []⟩)], ⟨"", "", none, []⟩) suiteA ⟨"w", "u1"⟩
    rfl rfl rfl

/-- C2 witness: one reported, passing, required check yields no pending and no
failed entries. -/
theorem categorize_checks_partition_witness :
    categorize_checks [("lint", ⟨"lint", "u", some "SUCCESS", none⟩)] ["lint"] 3 = ([], []) :=
  (categorize_checks_partition [("lint", ⟨"lint", "u", some "SUCCESS", none⟩)] ["lint"] 3
    (by decide)).trans (by decide)

/-- Mirrors dataclass `GitHubComment`. -/
structure GitHubComment where
  body_text : String
  created_at : String
  author_login : String
  author_association : String
  editor_login : Option String
  database_id : Nat
deriving DecidableEq, Repr

/-- Mirrors `GitHubPR.get_comment_by_id`: the first comment with the given
database id; the script raises `RuntimeError` when none exists, modelled as
`none`. -/
def get_comment_by_id (comments : List GitHubComment) (database_id : Nat) :
    Option GitHubComment :=
  comments.find? (fun comment => comment.database_id == database_id)

/-- Mirrors `can_skip_internal_checks(pr, comment_id)`: `False` without a
comment id; otherwise the comment is fetched by id (a missing id raises,
modelled as `none`), edited comments give `False`, and the result is whether
the author login is exactly `facebook-github-bot`. -/
def can_skip_internal_checks (comments : List GitHubComment) (comment_id : Option Nat) :
    Option Bool :=
  match comment_id with
  | none => some false
  | some cid =>
      match get_comment_by_id comments cid with
      | none => none
      | some comment =>
          if comment.editor_login ≠ none then some false
          else some (decide (comment.author_login = "facebook-github-bot"))

/-- C10: `can_skip_internal_checks` returns False whenever no comment id is
supplied, and returns True only for an unedited comment whose author login is
exactly `facebook-github-bot`. -/
theorem can_skip_internal_checks_spec (comments : List GitHubComment)
    (comment_id : Option Nat) :
    (comment_id = none → can_skip_internal_checks comments comment_id = some false) ∧
    (can_skip_internal_checks comments comment_id = some true →
      ∃ cid comment, comment_id = some cid ∧
        get_comment_by_id comments cid = some comment ∧
        comment.editor_login = none ∧
        comment.author_login = "facebook-github-bot") := by
  constructor
  · intro h
    subst h
    rfl
  · intro h
    cases hci : comment_id with
    | none =>
        rw [hci] at h
        simp [can_skip_internal_checks] at h
    | some cid =>
        rw [hci] at h
        cases hcc : get_comment_by_id comments cid with
        | none => simp [can_skip_internal_checks, hcc] at h
        | some comment =>
            by_cases he : comment.editor_login = none
            · simp only [can_skip_internal_checks, hcc, he, ne_eq, not_true_eq_false,
                if_false, Option.some.injEq, decide_eq_true_eq] at h
              exact ⟨cid, comment, rfl, hcc, he, by simpa using h⟩
            · simp [can_skip_internal_checks, hcc, he] at h

/-- C10 witness: a merge invocation without a comment id can never bypass the
internal-changes gate. -/
theorem can_skip_internal_checks_witness :
    can_skip_internal_checks [] none = some false :=
  (can_skip_internal_checks_spec [] none).1 rfl

/-- Mirrors dataclass `MergeRule` (fields `name`, `patterns`, `approved_by`,
`mandatory_checks_name`). -/
structure MergeRule where
  name : String
  patterns : List String
  approved_by : List String
  mandatory_checks_name : Option (List String)
deriving DecidableEq, Repr

/-- The two exception kinds `find_matching_merge_rule` can raise:
`MandatoryChecksMissingError` (which carries a rule) and plain
`RuntimeError`. -/
inductive MergeError where
  | runtimeError (msg : String)
  | mandatoryChecksMissing (msg : String) (rule : Option MergeRule)
deriving DecidableEq, Repr

/-- Failures of `validate_revert`: `PostCommentError` with its message, or an
exception propagated from `find_matching_merge_rule`. -/
inductive RevertError where
  | postCommentError (msg : String)
  | mergeRuleError (e : MergeError)
deriving DecidableEq, Repr

/-- Mirrors `validate_revert(repo, pr, comment_id)` once the triggering
comment has been resolved.  The repo- and network-dependent later stages are
passed as parameters: `rule_result` is the outcome of
`find_matching_merge_rule`, `merge_commit` is `pr.get_merge_commit()`,
`commits_resolving` is `repo.commits_resolving_gh_pr(pr.pr_num)`, and
`diff_rev_of` is `RE_DIFF_REV.search` applied to `repo.commit_message(sha)`
(returning the captured `D…` number).  Since Lean functions are pure, the two
authorization rejections returning the same error for every value of those
parameters witnesses that no git operation is performed there. -/
def validate_revert (comment : GitHubComment) (is_base_repo_private : Bool)
    (skip_internal_checks : Bool)
    (rule_result : Except MergeError MergeRule)
    (merge_commit : Option String)
    (commits_resolving : List String)
    (diff_rev_of : String → Option String) : Except RevertError (String × String) :=
  if comment.editor_login ≠ none then
    .error (.postCommentError "Don\x27t want to revert based on edited command")
  else
    let allowed_reverters := ["COLLABORATOR", "MEMBER", "OWNER"] ++
      (if is_base_repo_private then ["CONTRIBUTOR"] else [])
    if comment.author_association ∉ allowed_reverters then
      .error (.postCommentError ("Will not revert as @" ++ comment.author_login ++
        " is not one of [" ++ String.intercalate ", " allowed_reverters ++
        "], but instead is " ++ comment.author_association ++ "."))
    else
      match rule_result with
      | .error e => .error (.mergeRuleError e)
      | .ok _ =>
          match (match merge_commit with
                 | some sha => some sha
                 | none => commits_resolving.head?) with
          | none => .error (.postCommentError "Can\x27t find any commits resolving PR")
          | some commit_sha =>
              match diff_rev_of commit_sha with
              | some drev =>
                  if ¬ skip_internal_checks then
                    .error (.postCommentError
                      ("Can\x27t revert PR that was landed via phabricator as " ++ drev ++
                       ".  Please revert by going to the internal diff and clicking Unland."))
                  else .ok (comment.author_login, commit_sha)
              | none => .ok (comment.author_login, commit_sha)

/-- C5: `validate_revert` raises `PostCommentError` — for every value of the
repo-dependent parameters, hence before any git operation — whenever the
triggering comment has been edited, and whenever the author's association is
outside the allowed set; that set is `{COLLABORATOR, MEMBER, OWNER}` extended
with CONTRIBUTOR exactly when the base repository is private. -/
theorem validate_revert_auth (comment : GitHubComment) (priv skip : Bool)
    (rule_result : Except MergeError MergeRule) (merge_commit : Option String)
    (commits_resolving : List String) (diff_rev_of : String → Option String) :
    (comment.editor_login ≠ none →
      validate_revert comment priv skip rule_result merge_commit commits_resolving diff_rev_of
        = .error (.postCommentError "Don\x27t want to revert based on edited command")) ∧
    (comment.author_association ∉
        (["COLLABORATOR", "MEMBER", "OWNER"] ++ (if priv then ["CONTRIBUTOR"] else [])) →
      ∃ msg, validate_revert comment priv skip rule_result merge_commit commits_resolving
          diff_rev_of = .error (.postCommentError msg)) ∧
    (priv = false →
      (["COLLABORATOR", "MEMBER", "OWNER"] ++ (if priv then ["CONTRIBUTOR"] else []))
        = ["COLLABORATOR", "MEMBER", "OWNER"]) ∧
    (priv = true →
      (["COLLABORATOR", "MEMBER", "OWNER"] ++ (if priv then ["CONTRIBUTOR"] else []))
        = ["COLLABORATOR", "MEMBER", "OWNER", "CONTRIBUTOR"]) := by
  refine ⟨?_, ?_, ?_, ?_⟩
  · intro h
    simp only [validate_revert, h, ne_eq, not_false_iff, if_true]
    try rfl
  · intro h
    by_cases he : comment.editor_login = none
    · refine ⟨"Will not revert as @" ++ comment.author_login ++ " is not one of [" ++
        String.intercalate ", " (["COLLABORATOR", "MEMBER", "OWNER"] ++
          (if priv then ["CONTRIBUTOR"] else [])) ++
        "], but instead is " ++ comment.author_association ++ ".", ?_⟩
      simp only [validate_revert, he, ne_eq, not_true_eq_false, if_false]
      rw [if_pos h]
    · refine ⟨"Don\x27t want to revert based on edited command", ?_⟩
      simp only [validate_revert, he, ne_eq, not_false_iff, if_true]
      try rfl
  · intro h
    subst h
    rfl
  · intro h
    subst h
    rfl

/-- A revert command comment by an outside user on a public repository. -/
def outsiderComment : GitHubComment :=
  { body_text := "@pytorchbot revert", created_at := "t", author_login := "mallory",
    author_association := "NONE", editor_login := none, database_id := 5 }

/-- C5 witness: an association of NONE on a public repository is rejected with
a `PostCommentError` before any git interaction. -/
theorem validate_revert_auth_witness :
    ∃ msg, validate_revert outsiderComment false false
      (.ok ⟨"core", [], [], none⟩) none [] (fun _ => none)
      = Except.error (.postCommentError msg) :=
  (validate_revert_auth outsiderComment false false
    (.ok ⟨"core", [], [], none⟩) none [] (fun _ => none)).2.1 (by decide)

/-- Decimal digit list of a natural number (most significant first), the
specification of core's `Nat.toDigitsCore` at base 10. -/
def decDigits (n : Nat) : List Char :=
  if h : n < 10 then [Nat.digitChar n]
  else
    have : n / 10 < n := Nat.div_lt_self (by omega) (by omega)
    decDigits (n / 10) ++ [Nat.digitChar (n % 10)]

/-- Core's fueled digit printer computes `decDigits` when the fuel exceeds the
number. -/
theorem toDigitsCore_eq_decDigits (fuel : Nat) :
    ∀ (n : Nat) (ds : List Char), n < fuel →
      Nat.toDigitsCore 10 fuel n ds = decDigits n ++ ds := by
  induction fuel with
  | zero => intro n ds h; omega
  | succ f ih =>
      intro n ds h
      simp only [Nat.toDigitsCore]
      by_cases h10 : n / 10 = 0
      · have hn : n < 10 := by omega
        rw [if_pos h10, decDigits, dif_pos hn, Nat.mod_eq_of_lt hn]
        rfl
      · have hge : 10 ≤ n := by
          by_contra hc
          push_neg at hc
          omega
        have h2 : n / 10 < f := by
          have hlt : n / 10 < n := Nat.div_lt_self (by omega) (by omega)
          omega
        rw [if_neg h10, ih (n / 10) _ h2]
        conv_rhs => rw [decDigits]
        rw [dif_neg (show ¬ n < 10 by omega)]
        simp

/-- `Nat.repr` is the string of the decimal digits. -/
theorem repr_eq_decDigits (n : Nat) : Nat.repr n = ⟨decDigits n⟩ := by
  show (Nat.toDigits 10 n).asString = _
  rw [Nat.toDigits, toDigitsCore_eq_decDigits (n + 1) n [] (Nat.lt_succ_self n)]
  simp [List.asString]

/-- Valuation of a decimal digit string. -/
def decVal (l : List Char) : Nat := l.foldl (fun a c => 10 * a + (c.toNat - 48)) 0

/-- The code point of a decimal digit character. -/
theorem digitChar_toNat (d : Nat) (h : d < 10) : (Nat.digitChar d).toNat = 48 + d := by
  interval_cases d <;> rfl

/-- The valuation inverts the digit expansion. -/
theorem decVal_decDigits (n : Nat) : decVal (decDigits n) = n := by
  induction n using Nat.strong_induction_on with
  | _ n ih =>
      by_cases hn : n < 10
      · rw [decDigits, dif_pos hn]
        simp [decVal, digitChar_toNat n hn]
      · rw [decDigits, dif_neg hn]
        have hlt : n / 10 < n := Nat.div_lt_self (by omega) (by omega)
        have := ih (n / 10) hlt
        simp only [decVal, List.foldl_append, List.foldl_cons, List.foldl_nil]
        rw [show (List.foldl (fun a c => 10 * a + (c.toNat - 48)) 0 (decDigits (n / 10)))
          = n / 10 from this]
        rw [digitChar_toNat (n % 10) (Nat.mod_lt n (by omega))]
        omega

/-- Decimal printing of naturals is injective. -/
theorem repr_inj_nat : ∀ m n : Nat, Nat.repr m = Nat.repr n → m = n := by
  intro m n h
  rw [repr_eq_decDigits, repr_eq_decDigits] at h
  have hd : decDigits m = decDigits n := congrArg String.data h
  calc m = decVal (decDigits m) := (decVal_decDigits m).symm
    _ = decVal (decDigits n) := by rw [hd]
    _ = n := decVal_decDigits n

/-- The label chosen by `GitHubPR.add_numbered_label(label_base)`: starting
from the base name, each loop iteration over the current labels replaces a
colliding candidate with `label_base` followed by `X2`, `X3`, …
(`f"{label_base}X{i+2}"`). -/
def add_numbered_label_choice (label_base : String) (labels : List String) : String :=
  (List.range labels.length).foldl
    (fun label i => if label ∈ labels then label_base ++ "X" ++ Nat.repr (i + 2) else label)
    label_base

/-- Once the candidate is outside the label list it never changes again. -/
theorem foldl_stuck (labels : List String) (label_base : String) (v : String) (hv : v ∉ labels)
    (l : List Nat) :
    l.foldl (fun label i =>
      if label ∈ labels then label_base ++ "X" ++ Nat.repr (i + 2) else label) v = v := by
  induction l with
  | nil => rfl
  | cons x xs ih =>
      simp only [List.foldl_cons, if_neg hv]
      exact ih

/-- If the loop result still collides with the labels then every candidate of
the whole suffix chain was a label. -/
theorem foldl_chain (labels : List String) (label_base : String) :
    ∀ (k j : Nat) (v : String),
      (List.range' j k).foldl (fun label i =>
        if label ∈ labels then label_base ++ "X" ++ Nat.repr (i + 2) else label) v ∈ labels →
      v ∈ labels ∧ ∀ i, j + 2 ≤ i → i ≤ j + k + 1 →
        label_base ++ "X" ++ Nat.repr i ∈ labels := by
  intro k
  induction k with
  | zero =>
      intro j v h
      refine ⟨h, fun i h1 h2 => ?_⟩
      omega
  | succ s ih =>
      intro j v h
      rw [List.range'_succ, List.foldl_cons] at h
      by_cases hv : v ∈ labels
      · rw [if_pos hv] at h
        obtain ⟨h1, h2⟩ := ih (j + 1) _ h
        refine ⟨hv, fun i hi1 hi2 => ?_⟩
        by_cases hij : i = j + 2
        · subst hij; exact h1
        · exact h2 i (by omega) (by omega)
      · rw [if_neg hv, foldl_stuck labels label_base v hv] at h
        exact absurd h hv

/-- The chosen numbered label is never one of the current labels: were it,
the whole chain `label_base, label_baseX2, …, label_baseX(n+1)` would consist
of labels — `n+1` distinct strings inside a list of length `n`. -/
theorem choice_not_mem_labels (label_base : String) (labels : List String) :
    add_numbered_label_choice label_base labels ∉ labels := by
  intro hmem
  rw [add_numbered_label_choice, List.range_eq_range'] at hmem
  obtain ⟨hbase, hchain⟩ := foldl_chain labels label_base labels.length 0 label_base hmem
  set n := labels.length with hn
  set f : Nat → String := fun i => label_base ++ "X" ++ Nat.repr i with hf
  have hsub : Insert.insert label_base ((Finset.Icc 2 (n + 1)).image f) ⊆ labels.toFinset := by
    intro x hx
    rcases Finset.mem_insert.mp hx with hx | hx
    · subst hx
      exact List.mem_toFinset.mpr hbase
    · obtain ⟨i, hi, rfl⟩ := Finset.mem_image.mp hx
      obtain ⟨hi1, hi2⟩ := Finset.mem_Icc.mp hi
      exact List.mem_toFinset.mpr (hchain i hi1 (by omega))
  have hinj : Set.InjOn f (Finset.Icc 2 (n + 1)) := by
    intro a _ b _ hab
    have hd := congrArg String.data hab
    simp only [hf, String.data_append] at hd
    have hrepr : (Nat.repr a).data = (Nat.repr b).data := by
      rw [List.append_assoc, List.append_assoc] at hd
      exact List.append_cancel_left (List.append_cancel_left hd)
    exact repr_inj_nat a b (by
      have h2 : (⟨(Nat.repr a).data⟩ : String) = ⟨(Nat.repr b).data⟩ := by rw [hrepr]
      simpa using h2)
  have hcard1 : ((Finset.Icc 2 (n + 1)).image f).card = n := by
    rw [Finset.card_image_of_injOn hinj, Nat.card_Icc]
    omega
  have hnotin : label_base ∉ (Finset.Icc 2 (n + 1)).image f := by
    intro hx
    obtain ⟨i, _, heq⟩ := Finset.mem_image.mp hx
    have hlen := congrArg String.length heq
    simp only [hf, String.length_append] at hlen
    have hx1 : ("X").length = 1 := rfl
    omega
  have hcard : (Insert.insert label_base ((Finset.Icc 2 (n + 1)).image f)).card = n + 1 := by
    rw [Finset.card_insert_of_not_mem hnotin, hcard1]
  have hle : n + 1 ≤ labels.toFinset.card := hcard ▸ Finset.card_le_card hsub
  have hfin : labels.toFinset.card ≤ n := List.toFinset_card_le labels
  omega

/-- C8: `add_numbered_label` is injective in the claimed sense — for every
list of labels currently on the PR, the label it chooses is not already
present in that list, so `add_numbered_label("merged")` never creates two
identical labels on the same PR. -/
theorem add_numbered_label_fresh (label_base : String) (labels : List String) :
    labels.contains (add_numbered_label_choice label_base labels) = false := by
  have h := choice_not_mem_labels label_base labels
  cases hb : labels.contains (add_numbered_label_choice label_base labels) with
  | false => rfl
  | true => exact absurd (List.elem_iff.mp hb) h

/-- Python's `\w` character class (ASCII range). -/
def isWordChar (c : Char) : Bool := c.isAlphanum || c = '_'

/-- Splitting a character string into its lines (separator `\n`, which is
dropped; the result always has one more line than there are newlines). -/
def splitLines : List Char → List (List Char)
  | [] => [[]]
  | c :: cs =>
      if c = '\n' then [] :: splitLines cs
      else
        match splitLines cs with
        | [] => [[c]]
        | l :: ls => (c :: l) :: ls

/-- Joining lines back with `\n`. -/
def joinLines : List (List Char) → List Char
  | [] => []
  | [l] => l
  | l :: ls => l ++ '\n' :: joinLines ls

/-- Whether a line is matched by `RE_PR_CC_LINE = ^cc:? @\w+.*\r?\n?$`: it
starts with `cc`, an optional colon, then ` @` and at least one word
character (the `.*\r?` tail matches the rest of any line). -/
def ccMatchLine (l : List Char) : Bool :=
  match l with
  | 'c' :: 'c' :: rest =>
      match (match rest with
             | ':' :: r => r
             | r => r) with
      | ' ' :: '@' :: c :: _ => isWordChar c
      | _ => false
  | _ => false

/-- One pass of `re.sub(RE_PR_CC_LINE, "", body)` over the line list.  A
matching line is deleted together with its newline exactly when the greedy
`\n?` can take the newline, i.e. when the following line is empty or the line
is last; otherwise `$` only matches before the newline, so the line content
alone is removed and an empty line remains. -/
def ccSubLines : List (List Char) → List (List Char)
  | [] => []
  | [l] => [if ccMatchLine l then [] else l]
  | l :: l2 :: rest =>
      if ccMatchLine l then
        if l2 = [] then ccSubLines (l2 :: rest)
        else [] :: ccSubLines (l2 :: rest)
      else l :: ccSubLines (l2 :: rest)

/-- The `re.sub(RE_PR_CC_LINE, "", …)` step of `gen_commit_message`. -/
def sub_cc_lines (s : String) : String := ⟨joinLines (ccSubLines (splitLines s.data))⟩

/-- Whether the head line of `RE_GHSTACK_DESC` (`Stack.*:\r?\n`) can end here:
the remaining line content ends with `:` or `:\r`. -/
def lineEndsColon (l : List Char) : Bool :=
  match l.reverse with
  | ':' :: _ => true
  | '\r' :: ':' :: _ => true
  | _ => false

/-- One bullet line `\* [^\r\n]+\r?\n` at the head of the input; returns the
rest after the newline on success. -/
def matchBullet : List Char → Option (List Char)
  | '*' :: ' ' :: rest =>
      if (rest.takeWhile (fun c => decide (c ≠ '\r' ∧ c ≠ '\n'))).isEmpty then none
      else
        match rest.dropWhile (fun c => decide (c ≠ '\r' ∧ c ≠ '\n')) with
        | '\r' :: '\n' :: tail => some tail
        | '\n' :: tail => some tail
        | _ => none
  | _ => none

/-- Greedy repetition of bullet lines (the fuel always suffices because each
bullet consumes at least one character). -/
def bulletsMax : Nat → List Char → List Char
  | 0, cs => cs
  | fuel + 1, cs =>
      match matchBullet cs with
      | some rest => bulletsMax fuel rest
      | none => cs

/-- A match of `RE_GHSTACK_DESC = Stack.*:\r?\n(\* [^\r\n]+\r?\n)+` starting
exactly at the head of the input; returns the rest after the (greedy,
maximal) match. -/
def matchStackBlock (cs : List Char) : Option (List Char) :=
  match cs with
  | 'S' :: 't' :: 'a' :: 'c' :: 'k' :: rest =>
      match rest.dropWhile (fun c => decide (c ≠ '\n')) with
      | '\n' :: tail =>
          if lineEndsColon (rest.takeWhile (fun c => decide (c ≠ '\n'))) then
            match matchBullet tail with
            | some r => some (bulletsMax tail.length r)
            | none => none
          else none
      | _ => none
  | _ => none

/-- Left-to-right scan of `re.sub(RE_GHSTACK_DESC, "", …)`: at each position
either remove a match and continue after it, or emit the character. -/
def ghSubGo : Nat → List Char → List Char
  | 0, cs => cs
  | fuel + 1, cs =>
      match cs with
      | [] => []
      | c :: rest =>
          match matchStackBlock cs with
          | some tail => ghSubGo fuel tail
          | none => c :: ghSubGo fuel rest

/-- The `re.sub(RE_GHSTACK_DESC, "", …)` step of `gen_commit_message`. -/
def sub_ghstack (s : String) : String := ⟨ghSubGo s.data.length s.data⟩

/-- The body-stripping steps of `gen_commit_message`: remove `cc:` lines, then
(for stacked merges) remove the ghstack block. -/
def strip_body (filter_ghstack : Bool) (body : String) : String :=
  let msg_body := sub_cc_lines body
  if filter_ghstack then sub_ghstack msg_body else msg_body

/-- Mirrors `GitHubPR.gen_commit_message` given the PR scalars. -/
def gen_commit_message (title : String) (pr_num : Nat) (pr_url : String)
    (approved_by_urls : String) (body : String) (filter_ghstack : Bool) : String :=
  title ++ " (#" ++ Nat.repr pr_num ++ ")\n\n" ++ strip_body filter_ghstack body ++
  "\nPull Request resolved: " ++ pr_url ++ "\nApproved by: " ++ approved_by_urls ++ "\n"

/-- A body on which ghstack-block removal splices a new block together. -/
def c9Body : String := "StaStack x:\n* a\nck y:\n* b\n"

/-- C9 counterexample: the body-stripping composition is not idempotent.
Removing the block `Stack x:\n* a\n` from `c9Body` splices the surrounding
text into the fresh block `Stack y:\n* b\n`, which only a second application
removes, so stripping twice differs from stripping once. -/
theorem strip_body_not_idempotent_cex :
    strip_body true (strip_body true c9Body) ≠ strip_body true c9Body ∧
    strip_body true c9Body = "Stack y:\n* b\n" ∧
    strip_body true (strip_body true c9Body) = "" := by
  refine ⟨by decide, by decide, by decide⟩

/-- Lines produced by `splitLines` contain no newline. -/
theorem splitLines_no_nl : ∀ cs : List Char, ∀ l ∈ splitLines cs, '\n' ∉ l := by
  intro cs
  induction cs with
  | nil =>
      intro l hl
      simp only [splitLines, List.mem_singleton] at hl
      subst hl
      simp
  | cons c cs ih =>
      intro l hl
      simp only [splitLines] at hl
      by_cases hc : c = '\n'
      · rw [if_pos hc] at hl
        rcases List.mem_cons.mp hl with h | h
        · subst h; simp
        · exact ih l h
      · rw [if_neg hc] at hl
        cases hs : splitLines cs with
        | nil =>
            simp [hs] at hl
            subst hl
            simp only [List.mem_singleton]
            exact fun hh => hc hh.symm
        | cons l0 ls =>
            rw [hs] at hl
            rcases List.mem_cons.mp hl with h | h
            · subst h
              intro hmem
              rcases List.mem_cons.mp hmem with h | h
              · exact hc h.symm
              · exact ih l0 (hs ▸ List.mem_cons_self l0 ls) h
            · exact ih l (hs ▸ List.mem_cons_of_mem l0 h)

/-- `splitLines` never returns the empty list of lines. -/
theorem splitLines_ne_nil : ∀ cs : List Char, splitLines cs ≠ [] := by
  intro cs
  induction cs with
  | nil => simp [splitLines]
  | cons c cs ih =>
      simp only [splitLines]
      by_cases hc : c = '\n'
      · simp [hc]
      · rw [if_neg hc]
        cases hs : splitLines cs with
        | nil => simp
        | cons l0 ls => simp

/-- Every line surviving one cc-stripping pass fails the cc pattern. -/
theorem ccSubLines_no_match : ∀ ls : List (List Char), ∀ l ∈ ccSubLines ls,
    ccMatchLine l = false := by
  intro ls
  induction ls with
  | nil => intro l hl; cases hl
  | cons l0 rest ih =>
      intro l hl
      cases rest with
      | nil =>
          simp only [ccSubLines, List.mem_singleton] at hl
          subst hl
          cases hm : ccMatchLine l0 with
          | true => simp [hm, ccMatchLine]
          | false => simp [hm]
      | cons l2 rest2 =>
          simp only [ccSubLines] at hl
          by_cases hm : ccMatchLine l0 = true
          · rw [if_pos hm] at hl
            by_cases h2 : l2 = []
            · rw [if_pos h2] at hl
              exact ih l hl
            · rw [if_neg h2] at hl
              rcases List.mem_cons.mp hl with h | h
              · subst h; rfl
              · exact ih l h
          · rw [if_neg hm] at hl
            rcases List.mem_cons.mp hl with h | h
            · subst h
              simpa using hm
            · exact ih l h

/-- Every line surviving one cc-stripping pass is empty or an input line. -/
theorem ccSubLines_mem : ∀ ls : List (List Char), ∀ l ∈ ccSubLines ls,
    l = [] ∨ l ∈ ls := by
  intro ls
  induction ls with
  | nil => intro l hl; cases hl
  | cons l0 rest ih =>
      intro l hl
      cases rest with
      | nil =>
          simp only [ccSubLines, List.mem_singleton] at hl
          subst hl
          cases hm : ccMatchLine l0 with
          | true => simp [hm]
          | false => simp [hm]
      | cons l2 rest2 =>
          simp only [ccSubLines] at hl
          by_cases hm : ccMatchLine l0 = true
          · rw [if_pos hm] at hl
            by_cases h2 : l2 = []
            · rw [if_pos h2] at hl
              rcases ih l hl with h | h
              · exact Or.inl h
              · exact Or.inr (List.mem_cons_of_mem l0 h)
            · rw [if_neg h2] at hl
              rcases List.mem_cons.mp hl with h | h
              · exact Or.inl h
              · rcases ih l h with h | h
                · exact Or.inl h
                · exact Or.inr (List.mem_cons_of_mem l0 h)
          · rw [if_neg hm] at hl
            rcases List.mem_cons.mp hl with h | h
            · exact Or.inr (h ▸ List.mem_cons_self l0 (l2 :: rest2))
            · rcases ih l h with h | h
              · exact Or.inl h
              · exact Or.inr (List.mem_cons_of_mem l0 h)

/-- One cc-stripping pass leaves nonempty line lists nonempty. -/
theorem ccSubLines_ne_nil : ∀ ls : List (List Char), ls ≠ [] → ccSubLines ls ≠ [] := by
  intro ls
  induction ls with
  | nil => intro h; exact absurd rfl h
  | cons l0 rest ih =>
      intro _
      cases rest with
      | nil => simp [ccSubLines]
      | cons l2 rest2 =>
          simp only [ccSubLines]
          by_cases hm : ccMatchLine l0 = true
          · rw [if_pos hm]
            by_cases h2 : l2 = []
            · rw [if_pos h2]
              exact ih (by simp)
            · rw [if_neg h2]
              simp
          · rw [if_neg hm]
            simp

/-- Stripping is the identity on line lists with no cc line. -/
theorem ccSubLines_fix : ∀ ls : List (List Char),
    (∀ l ∈ ls, ccMatchLine l = false) → ccSubLines ls = ls := by
  intro ls
  induction ls with
  | nil => intro _; rfl
  | cons l0 rest ih =>
      intro h
      cases rest with
      | nil =>
          simp only [ccSubLines]
          rw [if_neg (by simp [h l0 (List.mem_singleton_self l0)])]
      | cons l2 rest2 =>
          simp only [ccSubLines]
          rw [if_neg (by simp [h l0 (List.mem_cons_self l0 (l2 :: rest2))])]
          rw [ih (fun l hl => h l (List.mem_cons_of_mem l0 hl))]

/-- Splitting after joining a single newline-free line is the identity. -/
theorem splitLines_no_nl_id : ∀ l : List Char, '\n' ∉ l → splitLines l = [l] := by
  intro l
  induction l with
  | nil => intro _; rfl
  | cons c cs ih =>
      intro h
      have hc : c ≠ '\n' := fun hcc => h (hcc ▸ List.mem_cons_self c cs)
      have hcs : '\n' ∉ cs := fun hmem => h (List.mem_cons_of_mem c hmem)
      simp only [splitLines, if_neg hc, ih hcs]

/-- Splitting distributes over one joined line. -/
theorem splitLines_append (l : List Char) (cs : List Char) (h : '\n' ∉ l) :
    splitLines (l ++ '\n' :: cs) = l :: splitLines cs := by
  induction l with
  | nil => simp [splitLines]
  | cons c l ih =>
      have hc : c ≠ '\n' := fun hcc => h (hcc ▸ List.mem_cons_self c l)
      have hl : '\n' ∉ l := fun hmem => h (List.mem_cons_of_mem c hmem)
      simp only [List.cons_append, splitLines, if_neg hc, List.append_eq]
      rw [ih hl]

/-- `splitLines` inverts `joinLines` on nonempty lists of newline-free
lines. -/
theorem splitLines_joinLines : ∀ ls : List (List Char), ls ≠ [] →
    (∀ l ∈ ls, '\n' ∉ l) → splitLines (joinLines ls) = ls := by
  intro ls
  induction ls with
  | nil => intro h _; exact absurd rfl h
  | cons l0 rest ih =>
      intro _ hnl
      cases rest with
      | nil =>
          simp only [joinLines]
          exact splitLines_no_nl_id l0 (hnl l0 (List.mem_singleton_self l0))
      | cons l2 rest2 =>
          simp only [joinLines]
          rw [splitLines_append l0 _ (hnl l0 (List.mem_cons_self l0 (l2 :: rest2)))]
          rw [ih (by simp) (fun l hl => hnl l (List.mem_cons_of_mem l0 hl))]

/-- C9 (amended): the cc-line removal step of commit-message composition is
idempotent — for every message body, removing `cc:` lines a second time
yields the same string as removing them once.  (The ghstack Stack-block
removal, and hence the full composition, is not idempotent in general.) -/
theorem sub_cc_lines_idempotent (s : String) :
    sub_cc_lines (sub_cc_lines s) = sub_cc_lines s := by
  show sub_cc_lines ⟨joinLines (ccSubLines (splitLines s.data))⟩ = _
  have hout := ccSubLines_mem (splitLines s.data)
  have hnl : ∀ l ∈ ccSubLines (splitLines s.data), '\n' ∉ l := by
    intro l hl
    rcases hout l hl with h | h
    · subst h; simp
    · exact splitLines_no_nl s.data l h
  have hne : ccSubLines (splitLines s.data) ≠ [] :=
    ccSubLines_ne_nil _ (splitLines_ne_nil s.data)
  show (⟨joinLines (ccSubLines (splitLines (joinLines (ccSubLines (splitLines s.data)))))⟩
      : String) = _
  rw [splitLines_joinLines _ hne hnl,
    ccSubLines_fix _ (ccSubLines_no_match (splitLines s.data))]
  rfl

/-- The inputs of `find_matching_merge_rule` that the script obtains from the
PR snapshot, the CLI flags, and the external collaborators: `pattern_match`
stands for `patterns_to_regex(rule.patterns).match` (from `gitutils`, outside
this file's source) applied to a file name, and `team_members` for
`gh_get_team_members` applied to an `org/team` reference (a network call).
`has_internal_changes` is the value of `pr.has_internal_changes()`. -/
structure MergeCtx where
  org : String
  project : String
  pr_num : Nat
  last_commit_oid : String
  changed_files : List String
  approved_by : List String
  checks : JobNameToStateDict
  skip_mandatory_checks : Bool
  skip_internal_checks : Bool
  has_internal_changes : Bool
  pattern_match : List String → String → Bool
  team_members : String → List String

/-- Mirrors `gen_new_issue_link(org, project, ["module: ci"])`; the urlencoded
label list is precomputed. -/
def gen_new_issue_link (org project : String) : String :=
  "https://github.com/" ++ org ++ "/" ++ project ++
    "/issues/new?labels=module%3A%20ci&template=bug-report.yml"

/-- The initial `reject_reason` of `find_matching_merge_rule`. -/
def initial_reason (ctx : MergeCtx) : String :=
  "No rule found to match PR. Please [report]" ++ gen_new_issue_link ctx.org ctx.project ++
    " this issue to DevX team."

/-- Python `"\n".join(s)` over a string `s` iterates its characters, putting a
newline between every two of them. -/
def join_nl_chars (s : String) : String :=
  String.intercalate "\n" (s.data.map (fun c => String.mk [c]))

/-- The file-mismatch rejection text.  The source passes one implicitly
concatenated f-string (not a tuple) to `"\n".join`, so the join interleaves a
newline between every character. -/
def file_fail_text (rule_name : String) (num_matching_files : Nat)
    (non_matching_files : List String) : String :=
  join_nl_chars ("Not all files match rule `" ++ rule_name ++ "`." ++
    Nat.repr num_matching_files ++ " files matched, but there are still non-matching files:" ++
    String.intercalate "," (non_matching_files.take 5) ++
    (if non_matching_files.length > 5 then ", ..." else ""))

/-- The no-review rejection text. -/
def not_reviewed_text (pr_num : Nat) (rule_name : String) : String :=
  "PR #" ++ Nat.repr pr_num ++ " has not been reviewed yet (Rule " ++ rule_name ++ ")"

/-- The approval-identity rejection text.  The source lists five members of a
Python set (whose iteration order is unspecified); the embedding lists them in
insertion order. -/
def approvers_text (rule_name : String) (rule_approvers : List String) : String :=
  "Approval needed from one of the following (Rule \x27" ++ rule_name ++ "\x27):" ++ "\n" ++
    String.intercalate ", " (rule_approvers.take 5) ++
    (if rule_approvers.length > 5 then ", ..." else "")

/-- Mirrors `checks_to_markdown_bullets`. -/
def checks_to_markdown_bullets (checks : List (String × Option String)) : List String :=
  (checks.take 5).map (fun c =>
    match c.2 with
    | some u => "- [" ++ c.1 ++ "](" ++ u ++ ")"
    | none => "- " ++ c.1)

/-- The hud link of `find_matching_merge_rule`. -/
def hud_link (ctx : MergeCtx) : String :=
  "https://hud.pytorch.org/" ++ ctx.org ++ "/" ++ ctx.project ++ "/commit/" ++
    ctx.last_commit_oid

/-- The failing-mandatory-checks rejection text. -/
def failed_checks_text (ctx : MergeCtx) (rule_name : String)
    (failed_checks : List (String × Option String)) : String :=
  String.intercalate "\n"
    ([Nat.repr failed_checks.length ++ " mandatory check(s) failed (Rule `" ++ rule_name ++
      "`).  The first few are:"] ++ checks_to_markdown_bullets failed_checks ++
     ["", "Dig deeper by [viewing the failures on hud](" ++ hud_link ctx ++ ")"])

/-- The pending-mandatory-checks rejection text. -/
def pending_checks_text (ctx : MergeCtx) (rule_name : String)
    (pending_checks : List (String × Option String)) : String :=
  String.intercalate "\n"
    ([Nat.repr pending_checks.length ++ " mandatory check(s) are pending/not yet run (Rule `" ++
      rule_name ++ "`).  The first few are:"] ++ checks_to_markdown_bullets pending_checks ++
     ["", "Dig deeper by [viewing the pending checks on hud](" ++ hud_link ctx ++ ")"])

/-- The `rule_approvers_set` construction: approvers containing a slash are
team references and are expanded through the team-members lookup (the Python
set is modelled as a list in insertion order). -/
def expand_approvers (team_members : String → List String)
    (approved_by_rule : List String) : List String :=
  approved_by_rule.foldl
    (fun acc approver =>
      if approver.data.contains '/' then acc ++ team_members approver else acc ++ [approver]) []

/-- Result of evaluating one rule inside the loop of
`find_matching_merge_rule`: either every gate passed, or the first failing
gate produced a score and a rejection text. -/
inductive RuleEval where
  | passed
  | rejected (score : Nat) (reason : String)
deriving DecidableEq, Repr

/-- The gate sequence of the loop body of `find_matching_merge_rule` for one
rule: file match (score = number of matching files), has-any-approval and
approval identity (score 10000), failing mandatory checks (score 30000),
pending mandatory checks (score 20000).  With `skip_mandatory_checks` only
patterns containing `EasyCLA` stay required. -/
def eval_rule (ctx : MergeCtx) (rule : MergeRule) : RuleEval :=
  let non_matching_files :=
    ctx.changed_files.filter (fun fname => ! ctx.pattern_match rule.patterns fname)
  if non_matching_files.length > 0 then
    .rejected (ctx.changed_files.length - non_matching_files.length)
      (file_fail_text rule.name (ctx.changed_files.length - non_matching_files.length)
        non_matching_files)
  else if rule.approved_by.length > 0 ∧ ctx.approved_by.length = 0 then
    .rejected 10000 (not_reviewed_text ctx.pr_num rule.name)
  else
    let rule_approvers := expand_approvers ctx.team_members rule.approved_by
    if (ctx.approved_by.filter (fun a => rule_approvers.contains a)).length = 0 ∧
        rule_approvers.length > 0 then
      .rejected 10000 (approvers_text rule.name rule_approvers)
    else
      let required_checks := (rule.mandatory_checks_name.getD []).filter
        (fun x => substrb "EasyCLA" x || ! ctx.skip_mandatory_checks)
      let pf := categorize_checks ctx.checks required_checks 3
      if pf.2.length > 0 then .rejected 30000 (failed_checks_text ctx rule.name pf.2)
      else if pf.1.length > 0 then .rejected 20000 (pending_checks_text ctx rule.name pf.1)
      else .passed

/-- Outcome of the rule loop: a satisfied rule, the internal-changes hard
error, or exhaustion with the accumulated `(reject_reason_score,
reject_reason)`. -/
inductive LoopOutcome where
  | found (rule : MergeRule)
  | raised (msg : String)
  | exhausted (score : Nat) (reason : String)
deriving DecidableEq, Repr

/-- The `for rule in rules` loop of `find_matching_merge_rule`.  Every
rejection branch updates the accumulator exactly when its score beats the
running one (the source compares with `>` for the file score and with
`reject_reason_score < 10000/30000/20000` for the fixed scores, which
coincide). -/
def fmmr_go (ctx : MergeCtx) : List MergeRule → Nat → String → LoopOutcome
  | [], score, reason => .exhausted score reason
  | rule :: rest, score, reason =>
      match eval_rule ctx rule with
      | .passed =>
          if ¬ ctx.skip_internal_checks ∧ ctx.has_internal_changes then
            .raised "This PR has internal changes and must be landed via Phabricator"
          else .found rule
      | .rejected s m =>
          if score < s then fmmr_go ctx rest s m else fmmr_go ctx rest score reason

/-- Mirrors `find_matching_merge_rule(pr, repo, skip_mandatory_checks,
skip_internal_checks, land_check_commit)` given the already fetched inputs:
an empty rule file is an immediate error; otherwise the loop either returns
the first satisfied rule, raises on internal changes, or after exhaustion
raises `MandatoryChecksMissingError` (carrying the last rule, the loop
variable's final value) exactly when the final score is 20000 and a plain
`RuntimeError` otherwise, with the accumulated rejection text as message. -/
def find_matching_merge_rule (ctx : MergeCtx) (rules : List MergeRule) :
    Except MergeError MergeRule :=
  if rules.isEmpty then
    .error (.runtimeError
      "Rejecting the merge as no rules are defined for the repository in .github/merge_rules.yaml")
  else
    match fmmr_go ctx rules 0 (initial_reason ctx) with
    | .found rule => .ok rule
    | .raised msg => .error (.runtimeError msg)
    | .exhausted score reason =>
        if score = 20000 then .error (.mandatoryChecksMissing reason rules.getLast?)
        else .error (.runtimeError reason)

/-- Declarative statement of the gates a rule must pass: all changed files
match the patterns; if the rule lists approvers then the PR has approvals;
the PR approvals intersect the expanded approver set whenever that set is
non-empty; and no required mandatory check is pending or failed. -/
def rule_gates (ctx : MergeCtx) (rule : MergeRule) : Bool :=
  ctx.changed_files.all (fun fname => ctx.pattern_match rule.patterns fname) &&
  (decide (rule.approved_by = []) || decide (ctx.approved_by ≠ [])) &&
  (decide ((ctx.approved_by.filter (fun a =>
      (expand_approvers ctx.team_members rule.approved_by).contains a)) ≠ []) ||
    decide (expand_approvers ctx.team_members rule.approved_by = [])) &&
  (decide ((categorize_checks ctx.checks ((rule.mandatory_checks_name.getD []).filter
      (fun x => substrb "EasyCLA" x || ! ctx.skip_mandatory_checks)) 3).1 = []) &&
   decide ((categorize_checks ctx.checks ((rule.mandatory_checks_name.getD []).filter
      (fun x => substrb "EasyCLA" x || ! ctx.skip_mandatory_checks)) 3).2 = []))

/-- A list has no counterexample to `p` iff `p` holds everywhere. -/
theorem filter_not_nil_iff_all {α : Type} (l : List α) (p : α → Bool) :
    ((l.filter (fun x => ! p x)).length = 0) ↔ l.all p = true := by
  induction l with
  | nil => simp
  | cons x xs ih =>
      by_cases h : p x <;> simp [List.filter_cons, h, ih]

/-- The sequential gates of the loop body compute exactly the declarative
conjunction `rule_gates`. -/
theorem eval_rule_passed_iff (ctx : MergeCtx) (rule : MergeRule) :
    eval_rule ctx rule = .passed ↔ rule_gates ctx rule = true := by
  simp only [eval_rule, rule_gates]
  by_cases h1 : (ctx.changed_files.filter
      (fun fname => ! ctx.pattern_match rule.patterns fname)).length > 0
  · rw [if_pos h1]
    have hall : ctx.changed_files.all (fun fname => ctx.pattern_match rule.patterns fname)
        = false := by
      by_contra hc
      have h0 := (filter_not_nil_iff_all ctx.changed_files
        (fun fname => ctx.pattern_match rule.patterns fname)).mpr (by simpa using hc)
      omega
    rw [hall]
    simp
  · rw [if_neg h1]
    have hall : ctx.changed_files.all (fun fname => ctx.pattern_match rule.patterns fname)
        = true := (filter_not_nil_iff_all _ _).mp (by omega)
    rw [hall]
    by_cases h2 : rule.approved_by.length > 0 ∧ ctx.approved_by.length = 0
    · rw [if_pos h2]
      have hg2 : (decide (rule.approved_by = []) || decide (ctx.approved_by ≠ [])) = false := by
        obtain ⟨ha, hb⟩ := h2
        have ha' : rule.approved_by ≠ [] := by
          intro hnil
          rw [hnil] at ha
          simp at ha
        have hb' : ctx.approved_by = [] := List.length_eq_zero.mp hb
        simp [ha', hb']
      rw [hg2]
      simp
    · rw [if_neg h2]
      have hg2 : (decide (rule.approved_by = []) || decide (ctx.approved_by ≠ [])) = true := by
        rcases Decidable.not_and_iff_or_not.mp h2 with h | h
        · have : rule.approved_by = [] := by
            cases hh : rule.approved_by with
            | nil => rfl
            | cons a t => exact absurd (by simp [hh]) h
          simp [this]
        · have : ctx.approved_by ≠ [] := by
            intro hnil
            exact h (by simp [hnil])
          simp [this]
      rw [hg2]
      by_cases h3 : (ctx.approved_by.filter (fun a =>
          (expand_approvers ctx.team_members rule.approved_by).contains a)).length = 0 ∧
          (expand_approvers ctx.team_members rule.approved_by).length > 0
      · rw [if_pos h3]
        have hg3 : (decide ((ctx.approved_by.filter (fun a =>
            (expand_approvers ctx.team_members rule.approved_by).contains a)) ≠ []) ||
            decide (expand_approvers ctx.team_members rule.approved_by = [])) = false := by
          obtain ⟨ha, hb⟩ := h3
          have ha' := List.length_eq_zero.mp ha
          have hb' : expand_approvers ctx.team_members rule.approved_by ≠ [] := by
            intro hnil
            rw [hnil] at hb
            simp at hb
          have hd1 : decide ((ctx.approved_by.filter (fun a =>
              (expand_approvers ctx.team_members rule.approved_by).contains a)) ≠ [])
              = false := decide_eq_false (fun hcon => hcon ha')
          have hd2 : decide (expand_approvers ctx.team_members rule.approved_by = [])
              = false := decide_eq_false hb'
          rw [hd1, hd2]
          rfl
        rw [hg3]
        simp
      · rw [if_neg h3]
        have hg3 : (decide ((ctx.approved_by.filter (fun a =>
            (expand_approvers ctx.team_members rule.approved_by).contains a)) ≠ []) ||
            decide (expand_approvers ctx.team_members rule.approved_by = [])) = true := by
          rcases Decidable.not_and_iff_or_not.mp h3 with h | h
          · have hne : (ctx.approved_by.filter (fun a =>
                (expand_approvers ctx.team_members rule.approved_by).contains a)) ≠ [] := by
              intro hnil
              exact h (by rw [hnil]; rfl)
            rw [decide_eq_true hne]
            rfl
          · have hnil : expand_approvers ctx.team_members rule.approved_by = [] := by
              cases hh : expand_approvers ctx.team_members rule.approved_by with
              | nil => rfl
              | cons a t => exact absurd (by simp [hh]) h
            rw [decide_eq_true hnil]
            simp
        rw [hg3]
        by_cases h4 : (categorize_checks ctx.checks ((rule.mandatory_checks_name.getD []).filter
            (fun x => substrb "EasyCLA" x || ! ctx.skip_mandatory_checks)) 3).2.length > 0
        · rw [if_pos h4]
          have hg4 : decide ((categorize_checks ctx.checks
              ((rule.mandatory_checks_name.getD []).filter
                (fun x => substrb "EasyCLA" x || ! ctx.skip_mandatory_checks)) 3).2 = [])
              = false := by
            apply decide_eq_false
            intro hnil
            rw [hnil] at h4
            simp at h4
          rw [hg4]
          simp
        · rw [if_neg h4]
          have hg4 : decide ((categorize_checks ctx.checks
              ((rule.mandatory_checks_name.getD []).filter
                (fun x => substrb "EasyCLA" x || ! ctx.skip_mandatory_checks)) 3).2 = [])
              = true := decide_eq_true (List.length_eq_zero.mp (by omega))
          rw [hg4]
          by_cases h5 : (categorize_checks ctx.checks
              ((rule.mandatory_checks_name.getD []).filter
                (fun x => substrb "EasyCLA" x || ! ctx.skip_mandatory_checks)) 3).1.length > 0
          · rw [if_pos h5]
            have hg5 : decide ((categorize_checks ctx.checks
                ((rule.mandatory_checks_name.getD []).filter
                  (fun x => substrb "EasyCLA" x || ! ctx.skip_mandatory_checks)) 3).1 = [])
                = false := by
              apply decide_eq_false
              intro hnil
              rw [hnil] at h5
              simp at h5
            rw [hg5]
            simp
          · rw [if_neg h5]
            have hg5 : decide ((categorize_checks ctx.checks
                ((rule.mandatory_checks_name.getD []).filter
                  (fun x => substrb "EasyCLA" x || ! ctx.skip_mandatory_checks)) 3).1 = [])
                = true := decide_eq_true (List.length_eq_zero.mp (by omega))
            rw [hg5]
            simp

/-- The score a rule's rejection contributes (0 for a passing rule). -/
def rule_reject_score (ctx : MergeCtx) (rule : MergeRule) : Nat :=
  match eval_rule ctx rule with
  | .passed => 0
  | .rejected s _ => s

/-- The rejection text a rule contributes. -/
def rule_reject_text (ctx : MergeCtx) (rule : MergeRule) : String :=
  match eval_rule ctx rule with
  | .passed => ""
  | .rejected _ m => m

/-- The scored-rejection accumulator of the loop, in isolation. -/
def best_fold (ctx : MergeCtx) (rules : List MergeRule) (init : Nat × String) : Nat × String :=
  rules.foldl
    (fun acc rule =>
      match eval_rule ctx rule with
      | .passed => acc
      | .rejected s m => if acc.1 < s then (s, m) else acc) init

/-- Unfolding `best_fold` one rule at a time. -/
theorem best_fold_cons (ctx : MergeCtx) (rule : MergeRule) (rest : List MergeRule)
    (init : Nat × String) :
    best_fold ctx (rule :: rest) init =
      best_fold ctx rest
        (match eval_rule ctx rule with
         | .passed => init
         | .rejected s m => if init.1 < s then (s, m) else init) := rfl

/-- `best_fold` over a passing head rule. -/
theorem best_fold_cons_passed (ctx : MergeCtx) (rule : MergeRule) (rest : List MergeRule)
    (init : Nat × String) (he : eval_rule ctx rule = .passed) :
    best_fold ctx (rule :: rest) init = best_fold ctx rest init := by
  rw [best_fold_cons, he]

/-- `best_fold` over a rejected head rule. -/
theorem best_fold_cons_rejected (ctx : MergeCtx) (rule : MergeRule) (rest : List MergeRule)
    (a : Nat) (b : String) (s : Nat) (m : String) (he : eval_rule ctx rule = .rejected s m) :
    best_fold ctx (rule :: rest) (a, b) =
      best_fold ctx rest (if a < s then (s, m) else (a, b)) := by
  rw [best_fold_cons, he]

/-- When every rule fails, the loop exhausts with exactly the accumulated
best-scoring rejection. -/
theorem fmmr_go_exhausted (ctx : MergeCtx) :
    ∀ (rules : List MergeRule) (score : Nat) (reason : String),
      (∀ r ∈ rules, eval_rule ctx r ≠ .passed) →
      fmmr_go ctx rules score reason =
        .exhausted (best_fold ctx rules (score, reason)).1
          (best_fold ctx rules (score, reason)).2 := by
  intro rules
  induction rules with
  | nil => intro score reason _; rfl
  | cons rule rest ih =>
      intro score reason h
      have h0 := h rule (List.mem_cons_self rule rest)
      cases he : eval_rule ctx rule with
      | passed => exact absurd he h0
      | rejected s m =>
          rw [best_fold_cons_rejected ctx rule rest score reason s m he]
          simp only [fmmr_go, he]
          by_cases hs : score < s
          · rw [if_pos hs, if_pos hs]
            exact ih s m (fun r hr => h r (List.mem_cons_of_mem rule hr))
          · rw [if_neg hs, if_neg hs]
            exact ih score reason (fun r hr => h r (List.mem_cons_of_mem rule hr))

/-- The loop stops at the first rule whose gates all pass, raising the
internal-changes error there when applicable. -/
theorem fmmr_go_found (ctx : MergeCtx) :
    ∀ (rules : List MergeRule) (score : Nat) (reason : String) (r : MergeRule),
      rules.find? (rule_gates ctx) = some r →
      fmmr_go ctx rules score reason =
        (if ¬ ctx.skip_internal_checks ∧ ctx.has_internal_changes then
          .raised "This PR has internal changes and must be landed via Phabricator"
        else .found r) := by
  intro rules
  induction rules with
  | nil => intro score reason r h; simp [List.find?] at h
  | cons rule rest ih =>
      intro score reason r h
      by_cases hg : rule_gates ctx rule = true
      · rw [List.find?_cons_of_pos _ hg] at h
        injection h with h
        subst h
        have hp : eval_rule ctx rule = .passed := (eval_rule_passed_iff ctx rule).mpr hg
        simp only [fmmr_go, hp]
      · rw [List.find?_cons_of_neg _ (by simp [hg])] at h
        have hp : eval_rule ctx rule ≠ .passed :=
          fun hc => hg ((eval_rule_passed_iff ctx rule).mp hc)
        cases he : eval_rule ctx rule with
        | passed => exact absurd he hp
        | rejected s m =>
            simp only [fmmr_go, he]
            by_cases hs : score < s
            · rw [if_pos hs]
              exact ih s m r h
            · rw [if_neg hs]
              exact ih score reason r h

/-- The accumulated score is the running maximum of the per-rule scores. -/
theorem best_fold_fst (ctx : MergeCtx) :
    ∀ (rules : List MergeRule) (init : Nat × String),
      (best_fold ctx rules init).1 = (rules.map (rule_reject_score ctx)).foldl max init.1 := by
  intro rules
  induction rules with
  | nil => intro init; rfl
  | cons rule rest ih =>
      intro init
      obtain ⟨a, b⟩ := init
      rw [List.map_cons, List.foldl_cons]
      cases he : eval_rule ctx rule with
      | passed =>
          have hsc : rule_reject_score ctx rule = 0 := by simp [rule_reject_score, he]
          rw [best_fold_cons_passed ctx rule rest (a, b) he, hsc, ih (a, b)]
          show _ = List.foldl max (max a 0) _
          rw [max_eq_left (Nat.zero_le a)]
      | rejected s m =>
          have hsc : rule_reject_score ctx rule = s := by simp [rule_reject_score, he]
          rw [best_fold_cons_rejected ctx rule rest a b s m he, hsc]
          by_cases hs : a < s
          · rw [if_pos hs, ih (s, m)]
            show _ = List.foldl max (max a s) _
            rw [max_eq_right (Nat.le_of_lt hs)]
          · rw [if_neg hs, ih (a, b)]
            show _ = List.foldl max (max a s) _
            rw [max_eq_left (Nat.le_of_not_lt hs)]

/-- The accumulated pair is the initial one or the score-and-text of some
rule. -/
theorem best_fold_snd (ctx : MergeCtx) :
    ∀ (rules : List MergeRule) (init : Nat × String),
      best_fold ctx rules init = init ∨
      ∃ r ∈ rules, rule_reject_score ctx r = (best_fold ctx rules init).1 ∧
        rule_reject_text ctx r = (best_fold ctx rules init).2 := by
  intro rules
  induction rules with
  | nil => intro init; exact Or.inl rfl
  | cons rule rest ih =>
      intro init
      obtain ⟨a, b⟩ := init
      cases he : eval_rule ctx rule with
      | passed =>
          rw [best_fold_cons_passed ctx rule rest (a, b) he]
          rcases ih (a, b) with h | ⟨r, hr, h1, h2⟩
          · exact Or.inl h
          · exact Or.inr ⟨r, List.mem_cons_of_mem rule hr, h1, h2⟩
      | rejected s m =>
          rw [best_fold_cons_rejected ctx rule rest a b s m he]
          by_cases hs : a < s
          · rw [if_pos hs]
            rcases ih (s, m) with h | ⟨r, hr, h1, h2⟩
            · refine Or.inr ⟨rule, List.mem_cons_self rule rest, ?_, ?_⟩
              · rw [h]; simp [rule_reject_score, he]
              · rw [h]; simp [rule_reject_text, he]
            · exact Or.inr ⟨r, List.mem_cons_of_mem rule hr, h1, h2⟩
          · rw [if_neg hs]
            rcases ih (a, b) with h | ⟨r, hr, h1, h2⟩
            · exact Or.inl h
            · exact Or.inr ⟨r, List.mem_cons_of_mem rule hr, h1, h2⟩

/-- C1 (amended): with a non-empty rule file, if some rule passes all gates
then `find_matching_merge_rule` returns the FIRST such rule — the gates being
`rule_gates`: all changed files match, a rule listing approvers requires some
approval and an intersection with the expanded approver set whenever that set
is non-empty, and no required check pending or failed — unless internal
changes must not be skipped, which raises a plain runtime error.  If no rule
passes, it raises `MandatoryChecksMissingError` exactly when the final reject
score is 20000 and a plain runtime error otherwise; the final score is the
maximum of the per-rule rejection scores, and the message is the rejection
text of a rule attaining that score (or the generic no-rule-matched text when
every score is zero). -/
theorem find_matching_merge_rule_spec (ctx : MergeCtx) (rules : List MergeRule)
    (hne : rules ≠ []) :
    (∀ r, rules.find? (rule_gates ctx) = some r →
      find_matching_merge_rule ctx rules =
        (if ¬ ctx.skip_internal_checks ∧ ctx.has_internal_changes then
          Except.error (MergeError.runtimeError
            "This PR has internal changes and must be landed via Phabricator")
        else Except.ok r)) ∧
    (rules.find? (rule_gates ctx) = none →
      find_matching_merge_rule ctx rules =
        (if (best_fold ctx rules (0, initial_reason ctx)).1 = 20000 then
          Except.error (MergeError.mandatoryChecksMissing
            (best_fold ctx rules (0, initial_reason ctx)).2 rules.getLast?)
        else Except.error (MergeError.runtimeError
          (best_fold ctx rules (0, initial_reason ctx)).2)) ∧
      (best_fold ctx rules (0, initial_reason ctx)).1 =
        (rules.map (rule_reject_score ctx)).foldl max 0 ∧
      (best_fold ctx rules (0, initial_reason ctx) = (0, initial_reason ctx) ∨
        ∃ r ∈ rules, rule_reject_score ctx r =
            (best_fold ctx rules (0, initial_reason ctx)).1 ∧
          rule_reject_text ctx r = (best_fold ctx rules (0, initial_reason ctx)).2)) := by
  have hempty : ¬ rules.isEmpty = true := by
    cases rules with
    | nil => exact absurd rfl hne
    | cons a t => simp
  constructor
  · intro r h
    rw [find_matching_merge_rule, if_neg hempty,
      fmmr_go_found ctx rules 0 (initial_reason ctx) r h]
    by_cases hi : ¬ ctx.skip_internal_checks ∧ ctx.has_internal_changes
    · rw [if_pos hi, if_pos hi]
    · rw [if_neg hi, if_neg hi]
  · intro h
    have hall : ∀ r ∈ rules, eval_rule ctx r ≠ .passed := by
      intro r hr hc
      exact (List.find?_eq_none.mp h r hr) ((eval_rule_passed_iff ctx r).mp hc)
    refine ⟨?_, best_fold_fst ctx rules (0, initial_reason ctx), best_fold_snd ctx rules _⟩
    rw [find_matching_merge_rule, if_neg hempty,
      fmmr_go_exhausted ctx rules 0 (initial_reason ctx) hall]

/-- The context of the C1 counterexample: the PR has an approval by `alice`,
every file matches every pattern, and the team-members lookup returns the
empty list (as `gh_get_team_members` does for a non-existing team). -/
def cexCtx : MergeCtx :=
  { org := "acme", project := "proj", pr_num := 1, last_commit_oid := "oid",
    changed_files := ["a.py"], approved_by := ["alice"],
    checks := [], skip_mandatory_checks := false, skip_internal_checks := true,
    has_internal_changes := false,
    pattern_match := fun _ _ => true,
    team_members := fun _ => [] }

/-- The rule of the C1 counterexample: it lists one team approver. -/
def cexRule : MergeRule := ⟨"teamrule", ["**"], ["acme/emptyteam"], none⟩

/-- C1 counterexample: the claim requires that "the approvers intersect when
the rule lists approvers", but the approval-identity gate is skipped whenever
the EXPANDED approver set is empty.  Here the rule lists an approver (a team
that expands to nobody), no approver of the PR intersects it — neither the
raw list nor its expansion — and yet the rule is returned instead of the
claimed rejection. -/
theorem find_matching_merge_rule_approver_cex :
    find_matching_merge_rule cexCtx [cexRule] = Except.ok cexRule ∧
    cexRule.approved_by ≠ [] ∧
    cexCtx.approved_by.filter (fun a => cexRule.approved_by.contains a) = [] ∧
    cexCtx.approved_by.filter (fun a =>
      (expand_approvers cexCtx.team_members cexRule.approved_by).contains a) = [] := by
  refine ⟨by rfl, by simp [cexRule], by rfl, by rfl⟩

/-- C1 witness: on the counterexample inputs the first (and only) rule passes
the embedded gates and is returned. -/
theorem find_matching_merge_rule_spec_witness :
    find_matching_merge_rule cexCtx [cexRule] = Except.ok cexRule := by
  have h := (find_matching_merge_rule_spec cexCtx [cexRule] (by simp)).1 cexRule (by rfl)
  simpa [cexCtx] using h

end Trymerge
